import Mathlib

/-!
Verification development for the Iris Properties Manager core: a shallow
embedding of `block_properties_parser.py`, `block_properties_manager.py` and
`auto_mapper.py`, together with theorems settling the specification's claims.

Python strings are modelled as lists of characters (`Str`).  Python lists are
Lean lists.  Python dicts (which preserve insertion order) are association
lists updated in place.  Python sets that the source only ever tests for
membership, or iterates over where the result is order-independent, are
modelled as insertion-ordered duplicate-free lists.  The undo/redo stacks
(Python lists used with `append`/`pop` at the right end) are modelled with the
top of the stack at the head of a Lean list.  In-place mutation of a
`Property` object found inside the element list is modelled by rebuilding the
list with the first matching element replaced.
-/

namespace IPM

/-- Python strings as lists of characters. -/
abbrev Str := List Char

/-- The characters Python's `str.strip()` family treats as whitespace. -/
def pySpace (c : Char) : Bool :=
  c = ' ' || c = '\t' || c = '\n' || c = '\r' || c = '\x0b' || c = '\x0c'

/-- Python `s.lstrip()`. -/
def pyLstrip (s : Str) : Str := s.dropWhile pySpace

/-- Python `s.rstrip()`. -/
def pyRstrip (s : Str) : Str := (s.reverse.dropWhile pySpace).reverse

/-- Python `s.strip()`. -/
def pyStrip (s : Str) : Str := pyLstrip (pyRstrip s)

theorem lengthDropWhileLe {α : Type} (p : α → Bool) (l : List α) :
    (l.dropWhile p).length ≤ l.length := by
  induction l with
  | nil => simp [List.dropWhile]
  | cons a l ih =>
    by_cases h : p a <;> simp [List.dropWhile, h] <;> omega

/-- Python `s.split()`: split on whitespace runs, dropping empty pieces. -/
def pySplitWs : Str → List Str
  | [] => []
  | c :: rest =>
    if pySpace c then pySplitWs rest
    else (c :: rest.takeWhile (fun x => !pySpace x)) ::
         pySplitWs (rest.dropWhile (fun x => !pySpace x))
termination_by s => s.length
decreasing_by
  · simp only [List.length_cons]; omega
  · have := lengthDropWhileLe (fun x => !pySpace x) rest
    simp only [List.length_cons]; omega

/-- Python `s.split(sep)` for a one-character separator (empty pieces kept). -/
def pySplitChar (sep : Char) (s : Str) : List Str :=
  let a := s.takeWhile (fun c => c ≠ sep)
  match h : s.dropWhile (fun c => c ≠ sep) with
  | [] => [a]
  | _ :: rest => a :: pySplitChar sep rest
termination_by s.length
decreasing_by
  have h2 := lengthDropWhileLe (fun c => decide (c ≠ sep)) s
  rw [h] at h2
  simp only [List.length_cons] at h2
  omega

/-- `s.split(sep)[0]`: the text before the first occurrence of `sep`
(the whole string when `sep` does not occur). -/
def beforeFirst (sep : Char) (s : Str) : Str := s.takeWhile (fun c => c ≠ sep)

/-- `s.split(sep)[-1]`: the text after the last occurrence of `sep`
(the whole string when `sep` does not occur). -/
def afterLast (sep : Char) (s : Str) : Str :=
  (s.reverse.takeWhile (fun c => c ≠ sep)).reverse

/-- Python `sub in s` substring containment. -/
def strContainsSub (pat : Str) : Str → Bool
  | [] => pat.isEmpty
  | c :: rest => pat.isPrefixOf (c :: rest) || strContainsSub pat rest

/-- Python `s.replace(old, "", 1)`: drop the first occurrence of `old`. -/
def replaceFirstDrop (pat : Str) : Str → Str
  | [] => []
  | c :: rest =>
    if pat ≠ [] && pat.isPrefixOf (c :: rest) then (c :: rest).drop pat.length
    else c :: replaceFirstDrop pat rest

/-- Python `s.split(sep)` for a non-empty multi-character separator. -/
def pySplitOnStr (sep : Str) : Str → List Str
  | [] => [[]]
  | c :: rest =>
    if sep ≠ [] && sep.isPrefixOf (c :: rest) then
      [] :: pySplitOnStr sep ((c :: rest).drop sep.length)
    else
      match pySplitOnStr sep rest with
      | [] => [[c]]
      | chunk :: more => (c :: chunk) :: more
termination_by s => s.length
decreasing_by
  · rename_i hp
    simp only [Bool.and_eq_true, decide_eq_true_eq] at hp
    have hlen : 1 ≤ sep.length := by
      cases sep with
      | nil => exact absurd rfl hp.1
      | cons x xs => simp
    simp only [List.length_cons, List.length_drop]
    omega
  · simp only [List.length_cons]; omega

/-- Python `s.replace(pat, rep)` (all occurrences, `pat` non-empty). -/
def pyReplaceAllStr (pat rep : Str) (s : Str) : Str :=
  List.intercalate rep (pySplitOnStr pat s)

/-- Python `"\n".join`-style joining. -/
def joinNl (xs : List Str) : Str := List.intercalate ['\n'] xs

/-- Python `" ".join`. -/
def joinSpace (xs : List Str) : Str := List.intercalate [' '] xs

/-- The line-break characters of Python `str.splitlines()`. -/
def pyLineBreak (c : Char) : Bool :=
  c = '\n' || c = '\r' || c = '\x0b' || c = '\x0c' ||
  c = '\x1c' || c = '\x1d' || c = '\x1e' || c = '\x85' || c = '\u2028' || c = '\u2029'

/-- Worker for `pySplitlines`; `acc` holds the current line reversed. -/
def splitlinesAux (acc : Str) : Str → List Str
  | [] => if acc.isEmpty then [] else [acc.reverse]
  | '\r' :: '\n' :: r2 => acc.reverse :: splitlinesAux [] r2
  | c :: r =>
    if pyLineBreak c then acc.reverse :: splitlinesAux [] r
    else splitlinesAux (c :: acc) r
termination_by s => s.length
decreasing_by all_goals simp only [List.length_cons]; omega

/-- Python `str.splitlines()` (no trailing empty piece). -/
def pySplitlines (s : Str) : List Str := splitlinesAux [] s

/-- Python string `<` (lexicographic on code points), as a `≤` test. -/
def strLe : Str → Str → Bool
  | [], _ => true
  | _ :: _, [] => false
  | a :: as, b :: bs =>
    if a.toNat < b.toNat then true
    else if b.toNat < a.toNat then false
    else strLe as bs

/-- An apostrophe character, used inside diagnostic strings. -/
def sqc : Char := Char.ofNat 39

-- ### The document model (block_properties_parser.py)

/-- `Property` from `block_properties_parser.py`.  `originalRawU` is the
`_original_raw` attribute and `preserveOriginal` the `_preserve_original`
flag.  `rawRegen` and `processedRegen` model the distinct `original_raw` and
`processed_value` attributes that only `regenerate_raw_value` ever creates
(they start absent). -/
structure Property where
  key : Str
  itemGroups : List (Str × List Str)
  allItems : List Str
  preserveOriginal : Bool
  originalRawU : Option Str
  rawRegen : Option Str
  processedRegen : Option Str
deriving DecidableEq, Repr

/-- `AbstractFileElement` and its four concrete kinds. -/
inductive Element where
  | comment (content : Str)
  | emptyLine
  | directive (content : Str)
  | property (p : Property)
deriving DecidableEq, Repr

/-- `mod_id in self.item_groups`. -/
def groupsHasKey (gs : List (Str × List Str)) (k : Str) : Bool :=
  gs.any (fun g => g.1 = k)

/-- `self.item_groups[mod_id] = []` when the key is absent
(dict keys keep insertion order, so the new group goes last). -/
def groupsEnsure (gs : List (Str × List Str)) (k : Str) : List (Str × List Str) :=
  if groupsHasKey gs k then gs else gs ++ [(k, [])]

/-- `self.item_groups[mod_id].append(item)`. -/
def groupsAppendItem : List (Str × List Str) → Str → Str → List (Str × List Str)
  | [], _, _ => []
  | (k, l) :: rest, gid, item =>
    if k = gid then (k, l ++ [item]) :: rest
    else (k, l) :: groupsAppendItem rest gid item

/-- One iteration of the loop in `Property._parse_value`: tokenize a line and
file each unseen item into the group for this line's mod id. -/
def parseValueLine (st : List (Str × List Str) × List Str) (idx : Nat) (line : Str) :
    List (Str × List Str) × List Str :=
  let items := pySplitWs (pyStrip line)
  match items with
  | [] => st
  | first :: _ =>
    let modId : Str :=
      if idx = 0 then "minecraft".data
      else if first.contains ':' then beforeFirst ':' first
      else "minecraft".data
    let gs := groupsEnsure st.1 modId
    items.foldl
      (fun st2 item =>
        if item ∈ st2.2 then st2
        else (groupsAppendItem st2.1 modId item, st2.2 ++ [item]))
      (gs, st.2)

/-- `Property._parse_value`: the `(item_groups, all_items)` a raw value yields. -/
def parseValue (raw : Str) : List (Str × List Str) × List Str :=
  ((pySplitlines raw).enum).foldl (fun st p => parseValueLine st p.1 p.2) ([], [])

/-- `Property.__init__(key, raw_value, original_raw)`.  An empty
`original_raw` is falsy in Python, so it is stored as `None` and the
preserve flag starts `False`. -/
def mkProperty (key : Str) (rawValue : Str) (originalRaw : Option Str) : Property :=
  let o : Option Str :=
    match originalRaw with
    | some s => if s = [] then none else some s
    | none => none
  let gsai := parseValue rawValue
  { key := key, itemGroups := gsai.1, allItems := gsai.2,
    preserveOriginal := o.isSome, originalRawU := o,
    rawRegen := none, processedRegen := none }

/-- `Property.add_item`. -/
def Property.addItem (p : Property) (item modId : Str) : Property :=
  let gs := groupsEnsure p.itemGroups modId
  if item ∈ p.allItems then { p with itemGroups := gs }
  else { p with itemGroups := groupsAppendItem gs modId item,
                allItems := p.allItems ++ [item],
                preserveOriginal := false }

/-- `Property.sort_items_alphabetically` (Python `list.sort()` is an
ascending stable sort; on strings ties are equal elements, so `mergeSort`
with the code-point order coincides with it). -/
def Property.sortItemsAlphabetically (p : Property) : Property :=
  { p with itemGroups := p.itemGroups.map (fun g => (g.1, g.2.mergeSort strLe)),
           preserveOriginal := false }

/-- The canonical branch of `Property.to_string` (the code after the
preserved-raw early return). -/
def Property.renderGroups (p : Property) : Str :=
  if p.itemGroups = [] then p.key ++ ['=']
  else
    let valueLines := (p.itemGroups.filter (fun g => g.2 ≠ [])).map (fun g => joinSpace g.2)
    p.key ++ ['='] ++ List.intercalate (' ' :: '\\' :: '\n' :: [' ']) valueLines

/-- `Property.to_string`. -/
def Property.toStr (p : Property) : Str :=
  if p.preserveOriginal then
    match p.originalRawU with
    | some raw => p.key ++ '=' :: raw
    | none => p.renderGroups
  else p.renderGroups

/-- `Property._get_all_current_items` (gather and sort every current item). -/
def Property.getAllCurrentItems (p : Property) : List Str :=
  ((p.itemGroups.map Prod.snd).flatten).mergeSort strLe

/-- One iteration of the line-wrapping loop in
`Property.regenerate_raw_value` (state: lines built so far, current line). -/
def regenWrapStep (st : List Str × Str) (token : Str) : List Str × Str :=
  let lines := st.1
  let cur := st.2
  if (decide (cur.length + token.length + (if cur ≠ [] then 2 else 0) > 120)) && cur ≠ [] then
    (lines ++ [pyStrip cur ++ [' ', '\\']], token)
  else if cur ≠ [] then (lines, cur ++ ',' :: ' ' :: token)
  else (lines, token)

/-- `Property.regenerate_raw_value`: rebuilds the comma-joined, 120-column
wrapped text, but stores it in the attributes `original_raw` and
`processed_value` (`rawRegen`/`processedRegen` here), which are distinct from
the `_original_raw` cache that `to_string` reads. -/
def Property.regenerateRawValue (p : Property) : Property :=
  let items := p.getAllCurrentItems
  let fullText := List.intercalate (',' :: [' ']) items
  let tokens := pySplitOnStr (',' :: [' ']) fullText
  let st := tokens.foldl regenWrapStep ([], [])
  let newLines := if st.2 ≠ [] then st.1 ++ [pyStrip st.2] else st.1
  let raw := joinNl newLines
  { p with rawRegen := some raw,
           processedRegen := some (pyReplaceAllStr (' ' :: ['\\']) [] raw) }

-- ### The parser (BlockPropertiesParser.parse)

/-- The continuation-collecting `while` loop in the parser: starting from the
text after `=`, keep consuming raw lines while the last collected line
(right-stripped) ends in a backslash.  Returns the collected raw value lines
and the remaining input lines. -/
def collectCont (cur : Str) (rest : List Str) : List Str × List Str :=
  if (pyRstrip cur).getLast? = some '\\' then
    match rest with
    | [] => ([cur], [])
    | nxt :: rest2 =>
      let cr := collectCont nxt rest2
      (cur :: cr.1, cr.2)
  else ([cur], rest)
termination_by rest.length
decreasing_by simp only [List.length_cons]; omega

theorem collectContAppend (cur : Str) (rest : List Str) :
    (collectCont cur rest).1 ++ (collectCont cur rest).2 = cur :: rest := by
  induction rest generalizing cur with
  | nil =>
    rw [collectCont]
    by_cases h : (pyRstrip cur).getLast? = some '\\' <;> simp [h]
  | cons nxt rest2 ih =>
    rw [collectCont]
    by_cases h : (pyRstrip cur).getLast? = some '\\' <;> simp [h, ih]

theorem collectContRestLe (cur : Str) (rest : List Str) :
    (collectCont cur rest).2.length ≤ rest.length := by
  induction rest generalizing cur with
  | nil =>
    rw [collectCont]
    by_cases h : (pyRstrip cur).getLast? = some '\\' <;> simp [h]
  | cons nxt rest2 ih =>
    rw [collectCont]
    by_cases h : (pyRstrip cur).getLast? = some '\\' <;> simp [h]
    exact Nat.le_succ_of_le (ih nxt)

/-- Removing the trailing continuation backslash from one raw value line, as
the parser does when building the processed value. -/
def stripContBackslash (ln : Str) : Str :=
  if (pyRstrip ln).getLast? = some '\\' then (pyRstrip ln).dropLast else ln

/-- The five directive keywords. -/
def isDirectiveLine (stripped : Str) : Bool :=
  ["#ifdef", "#ifndef", "#else", "#endif", "#define"].any
    (fun d => d.data.isPrefixOf stripped)

/-- `BlockPropertiesParser.parse`, over the file's lines (each line given
without its trailing newline, as after `rstrip('\n')`). -/
def parseLines : List Str → List Element
  | [] => []
  | line :: rest =>
    let stripped := pyStrip line
    if stripped = [] then .emptyLine :: parseLines rest
    else if isDirectiveLine stripped then .directive line :: parseLines rest
    else if ['#'].isPrefixOf stripped then .comment line :: parseLines rest
    else if line.contains '=' then
      let keyPart := line.takeWhile (fun c => c ≠ '=')
      let afterEq := (line.dropWhile (fun c => c ≠ '=')).tail
      let cr := collectCont afterEq rest
      let originalRaw := joinNl cr.1
      let processed := pyLstrip (joinNl (cr.1.map stripContBackslash))
      .property (mkProperty (pyStrip keyPart) processed (some originalRaw)) ::
        parseLines cr.2
    else .comment ("# [UNPARSED] ".data ++ line) :: parseLines rest
termination_by l => l.length
decreasing_by
  all_goals simp only [List.length_cons]
  all_goals first
    | omega
    | exact Nat.lt_succ_of_le (collectContRestLe _ _)

/-- `AbstractFileElement.to_string` over the four kinds. -/
def Element.toStr : Element → Str
  | .comment c => c
  | .emptyLine => []
  | .directive c => c
  | .property p => p.toStr

/-- Serialization as in `BlockPropertiesManager.get_diff`/`save_to_file`:
each element's string form with a trailing newline, concatenated. -/
def serializeElements (els : List Element) : Str :=
  (els.map (fun e => e.toStr ++ ['\n'])).flatten

/-- A list of lines as one text, every line newline-terminated. -/
def unlines (lines : List Str) : Str :=
  (lines.map (fun l => l ++ ['\n'])).flatten

-- ### The manager (block_properties_manager.py)

/-- The `BlockPropertiesManager` state that the claims concern (the derived
indices are modelled as functions of `modifiedElements`; a manager with no
file loaded has empty element lists, matching Python truthiness of `None`
and `[]`).  Stacks have their most recently pushed entry at the head. -/
structure Manager where
  originalElements : List Element
  modifiedElements : List Element
  historyStack : List (List Element)
  redoStack : List (List Element)
  historyDescriptions : List Str
deriving DecidableEq, Repr

/-- `BlockPropertiesManager._save_state_for_undo` (Python deep copies are
value copies here). -/
def saveStateForUndo (m : Manager) (d : Str) : Manager :=
  if m.modifiedElements ≠ [] then
    { m with redoStack := [],
             historyDescriptions := d :: m.historyDescriptions,
             historyStack := m.modifiedElements :: m.historyStack }
  else m

/-- `BlockPropertiesManager.load_file`, given the already parsed elements. -/
def loadFile (m : Manager) (elements : List Element) : Bool × Manager :=
  if elements = [] then (false, m)
  else (true, { originalElements := elements, modifiedElements := elements,
                historyStack := [], redoStack := [], historyDescriptions := [] })

/-- `BlockPropertiesManager._find_property`: first Property with this key. -/
def findProperty : List Element → Str → Option Property
  | [], _ => none
  | .property p :: rest, k => if p.key = k then some p else findProperty rest k
  | _ :: rest, k => findProperty rest k

/-- In-place mutation of the Property `_find_property` returns: rebuild the
list with the first matching Property replaced by `f` of it. -/
def updateFirstProp (doc : List Element) (k : Str) (f : Property → Property) :
    List Element :=
  match doc with
  | [] => []
  | .property p :: rest =>
    if p.key = k then .property (f p) :: rest
    else .property p :: updateFirstProp rest k f
  | e :: rest => e :: updateFirstProp rest k f

/-- `BlockPropertiesManager.undo`. -/
def undo (m : Manager) : Manager :=
  match m.historyStack with
  | [] => m
  | top :: restH =>
    { m with redoStack := m.modifiedElements :: m.redoStack,
             modifiedElements := top,
             historyStack := restH,
             historyDescriptions := m.historyDescriptions.tail }

/-- `BlockPropertiesManager.redo` (no description is restored). -/
def redo (m : Manager) : Manager :=
  match m.redoStack with
  | [] => m
  | top :: restR =>
    { m with historyStack := m.modifiedElements :: m.historyStack,
             modifiedElements := top,
             redoStack := restR }

/-- n-fold `undo`. -/
def undoN : Nat → Manager → Manager
  | 0, m => m
  | n + 1, m => undoN n (undo m)

/-- n-fold `redo`. -/
def redoN : Nat → Manager → Manager
  | 0, m => m
  | n + 1, m => redoN n (redo m)

/-- The description string `f"Sorted category '{category_id}'"`. -/
def sortedDesc (categoryId : Str) : Str :=
  "Sorted category ".data ++ sqc :: (categoryId ++ [sqc])

/-- The composed in-place mutation `sort_category` performs on the found
Property: sort every group, then regenerate the raw value. -/
def sortRegen (p : Property) : Property :=
  (p.sortItemsAlphabetically).regenerateRawValue

/-- `BlockPropertiesManager.sort_category`.  When the category is missing the
code pops the just-pushed history snapshot (`history_stack.pop()`), but
leaves the appended description and the cleared redo stack as they are. -/
def sortCategory (m : Manager) (categoryId : Str) : Manager :=
  let m1 := saveStateForUndo m (sortedDesc categoryId)
  match findProperty m1.modifiedElements categoryId with
  | some _ =>
    { m1 with modifiedElements :=
        updateFirstProp m1.modifiedElements categoryId sortRegen }
  | none => { m1 with historyStack := m1.historyStack.tail }

/-- The mod id `item.split(":")[0] if ":" in item else "minecraft"`. -/
def modIdOf (item : Str) : Str :=
  if item.contains ':' then beforeFirst ':' item else "minecraft".data

/-- The description `f"Added {n} items to '{category_id}'"`. -/
def addedDesc (n : Nat) (categoryId : Str) : Str :=
  "Added ".data ++ (toString n).data ++ " items to ".data ++
    sqc :: (categoryId ++ [sqc])

/-- The description `f"Template: Applied '{template_item}' to {n} items"`. -/
def templateDesc (templateItem : Str) (n : Nat) : Str :=
  "Template: Applied ".data ++ sqc :: (templateItem ++ [sqc]) ++
    " to ".data ++ (toString n).data ++ " items".data

/-- Appending to `template_variations_by_category[key]`, creating the entry
(at dict insertion order, i.e. the end) when absent. -/
def assocAppend (l : List (Str × List Str)) (k : Str) (v : Str) :
    List (Str × List Str) :=
  match l with
  | [] => [(k, [v])]
  | (k2, vs) :: rest =>
    if k2 = k then (k2, vs ++ [v]) :: rest
    else (k2, vs) :: assocAppend rest k v

/-- One item's contribution to the variation collection: record it under the
Property's key when it starts with the template base name. -/
def collectStep (base key : Str) (acc2 : List (Str × List Str)) (it : Str) :
    List (Str × List Str) :=
  if base.isPrefixOf it then assocAppend acc2 key it else acc2

/-- The collection loop of template mode: for every Property and every item
whose text starts with the template base name, record the item under the
Property's key. -/
def collectVariations (doc : List Element) (base : Str) : List (Str × List Str) :=
  doc.foldl
    (fun acc e =>
      match e with
      | .property p => p.allItems.foldl (collectStep base p.key) acc
      | _ => acc)
    []

/-- The innermost loop body of template mode: synthesize the suffixed item
for one new base item and add it to the target Property when absent.  The
Bool records whether anything was added. -/
def templateInnerStep (suffix : Str) (st2 : Property × Bool) (nib : Str) :
    Property × Bool :=
  if nib ++ suffix ∈ st2.1.allItems then st2
  else (st2.1.addItem (nib ++ suffix) (modIdOf nib), true)

/-- The per-category inner loops of template mode: for every collected
variation and every new base item, synthesize the suffixed item and add it to
the target Property when absent. -/
def templateAddOne (items : List Str) (base : Str) (pr : Property)
    (vars : List Str) : Property × Bool :=
  vars.foldl
    (fun st v => items.foldl (templateInnerStep (replaceFirstDrop base v)) st)
    (pr, false)

/-- One iteration of the outer per-category loop of template mode.  State:
the document, the `items_were_added` flag, and the keys of the
`modified_properties` dict in insertion order. -/
def templateStep (items : List Str) (base : Str)
    (st : List Element × Bool × List Str) (cv : Str × List Str) :
    List Element × Bool × List Str :=
  match findProperty st.1 cv.1 with
  | none => st
  | some pr =>
    let pb := templateAddOne items base pr cv.2
    let doc2 := updateFirstProp st.1 cv.1 (fun _ => pb.1)
    if pb.2 then (doc2, true, st.2.2 ++ [cv.1])
    else (doc2, st.2.1, st.2.2)

/-- The final pass of template mode: `regenerate_raw_value` on every
modified Property (in place, i.e. on the first Property of each key). -/
def applyRegen (doc : List Element) (keys : List Str) : List Element :=
  keys.foldl (fun d k => updateFirstProp d k Property.regenerateRawValue) doc

/-- The simple-mode branch of `add_items_to_category`. -/
def addItemsSimple (m : Manager) (itemsToAdd : List Str) (categoryId : Str) :
    Bool × Manager :=
  match findProperty m.modifiedElements categoryId with
  | none => (false, m)
  | some target =>
    if itemsToAdd.all (fun it => it ∈ target.allItems) then (false, m)
    else
      let m1 := saveStateForUndo m (addedDesc itemsToAdd.length categoryId)
      let doc2 := updateFirstProp m1.modifiedElements categoryId
        (fun p =>
          (itemsToAdd.foldl (fun q it => q.addItem it (modIdOf it)) p).regenerateRawValue)
      (true, { m1 with modifiedElements := doc2 })

/-- The template-mode branch of `add_items_to_category`. -/
def addItemsTemplate (m : Manager) (itemsToAdd : List Str) (tmpl : Str) :
    Bool × Manager :=
  let base := List.intercalate [':'] ((pySplitChar ':' tmpl).take 2)
  if m.modifiedElements = [] then (false, m)
  else
    let collected := collectVariations m.modifiedElements base
    let m1 := saveStateForUndo m (templateDesc tmpl itemsToAdd.length)
    let st := collected.foldl (templateStep itemsToAdd base)
                (m1.modifiedElements, false, [])
    let doc3 := applyRegen st.1 st.2.2
    (st.2.1, { m1 with modifiedElements := doc3 })

/-- `BlockPropertiesManager.add_items_to_category`.  `template_item` truthy
(present and non-empty) selects template mode, otherwise simple mode. -/
def addItemsToCategory (m : Manager) (itemsToAdd : List Str) (categoryId : Str)
    (templateItem : Option Str) : Bool × Manager :=
  match templateItem with
  | some tmpl =>
    if tmpl.isEmpty then addItemsSimple m itemsToAdd categoryId
    else addItemsTemplate m itemsToAdd tmpl
  | none => addItemsSimple m itemsToAdd categoryId

-- ### Item lookup (check_item_existence over freshly built lookup sets)

/-- The flat collection of every item string in the document
(`_build_lookup_sets` builds a set of these; only membership is used). -/
def allItemValues (doc : List Element) : List Str :=
  (doc.map (fun e => match e with | .property p => p.allItems | _ => [])).flatten

/-- `val.split(':')[0].split('[')[0]`, the transformation
`check_item_existence` and `_build_lookup_sets` apply. -/
def cieBase (s : Str) : Str := beforeFirst '[' (beforeFirst ':' s)

/-- `BlockPropertiesManager.check_item_existence`, over lookup sets freshly
built from the document (as after `load_file` or any `add_items_to_category`
mutation). -/
def checkItemExistence (doc : List Element) (itemName : Str) : Str :=
  if itemName ∈ allItemValues doc then "EXISTS".data
  else if cieBase itemName ∈ (allItemValues doc).map cieBase then "PARTIAL".data
  else "NEW".data

-- ### The suggestion engine

/-- `s.replace("_", " ")`. -/
def underscoreToSpace (s : Str) : Str := s.map (fun c => if c = '_' then ' ' else c)

/-- `s.lower()` (ASCII; the items the program handles are ASCII names). -/
def lowerStr (s : Str) : Str := s.map Char.toLower

/-- A regex `\w` character (ASCII fragment of Python's class). -/
def isWordChar (c : Char) : Bool := c.isAlphanum || c = '_'

/-- `re.findall(r'\b\w+\b', s)`: the maximal runs of word characters. -/
def findWords : Str → List Str
  | [] => []
  | c :: rest =>
    if isWordChar c then
      (c :: rest.takeWhile isWordChar) :: findWords (rest.dropWhile isWordChar)
    else findWords rest
termination_by s => s.length
decreasing_by
  · simp only [List.length_cons]
    exact Nat.lt_succ_of_le (lengthDropWhileLe _ _)
  · simp only [List.length_cons]; omega

/-- First-seen-order deduplication (the model of building a Python set whose
iteration order the surrounding code does not depend on). -/
def dedup (xs : List Str) : List Str :=
  xs.foldl (fun acc x => if x ∈ acc then acc else acc ++ [x]) []

/-- The word set `_build_suggestion_index` derives from one Property. -/
def propWordSet (p : Property) : List Str :=
  dedup (findWords (lowerStr (underscoreToSpace (joinSpace p.allItems))))

/-- `self._suggestion_index.setdefault(word, set()).add(key)`. -/
def idxAdd (idx : List (Str × List Str)) (w k : Str) : List (Str × List Str) :=
  match idx with
  | [] => [(w, [k])]
  | (w2, ks) :: rest =>
    if w2 = w then (w2, if k ∈ ks then ks else ks ++ [k]) :: rest
    else (w2, ks) :: idxAdd rest w k

/-- The keyword half of `_build_suggestion_index`. -/
def buildSuggestionIndex (doc : List Element) : List (Str × List Str) :=
  doc.foldl
    (fun idx e =>
      match e with
      | .property p => (propWordSet p).foldl (fun ix w => idxAdd ix w p.key) idx
      | _ => idx)
    []

/-- `item.split(":")[-1].split("[")[0]`: the base name used by the
suggestion engine. -/
def stripToBase (item : Str) : Str := beforeFirst '[' (afterLast ':' item)

/-- Python `str.isnumeric` (ASCII digits; the keys involved are ASCII). -/
def pyIsNumeric (s : Str) : Bool := s ≠ [] && s.all Char.isDigit

/-- The family-key filter `if family_key and not family_key.isnumeric() and
len(family_key) > 2`. -/
def famKeyOk (fk : Str) : Bool := fk ≠ [] && !pyIsNumeric fk && decide (fk.length > 2)

/-- `self._family_index[family_key][key] += 1` (with defaults). -/
def bumpCount : List (Str × Nat) → Str → List (Str × Nat)
  | [], k => [(k, 1)]
  | (k2, n) :: rest, k =>
    if k2 = k then (k2, n + 1) :: rest else (k2, n) :: bumpCount rest k

/-- Adding one occurrence to the family index. -/
def famAdd (fam : List (Str × List (Str × Nat))) (fk k : Str) :
    List (Str × List (Str × Nat)) :=
  match fam with
  | [] => [(fk, [(k, 1)])]
  | (f2, cm) :: rest =>
    if f2 = fk then (f2, bumpCount cm k) :: rest
    else (f2, cm) :: famAdd rest fk k

/-- One item's contribution to the family index. -/
def famItemStep (key : Str) (fm : List (Str × List (Str × Nat))) (it : Str) :
    List (Str × List (Str × Nat)) :=
  if famKeyOk (afterLast '_' (stripToBase it)) then
    famAdd fm (afterLast '_' (stripToBase it)) key
  else fm

/-- The family half of `_build_suggestion_index`. -/
def buildFamilyIndex (doc : List Element) : List (Str × List (Str × Nat)) :=
  doc.foldl
    (fun fam e =>
      match e with
      | .property p => p.allItems.foldl (famItemStep p.key) fam
      | _ => fam)
    []

/-- Association-list lookup (Python `d[k]` / `k in d`). -/
def assocLookup {β : Type} : List (Str × β) → Str → Option β
  | [], _ => none
  | (k2, v) :: rest, k => if k2 = k then some v else assocLookup rest k

/-- `category_scores[c] = category_scores.get(c, 0) + w`. -/
def scoreBump (sc : List (Str × ℚ)) (c : Str) (w : ℚ) : List (Str × ℚ) :=
  match sc with
  | [] => [(c, w)]
  | (c2, s) :: rest =>
    if c2 = c then (c2, s + w) :: rest else (c2, s) :: scoreBump rest c w

/-- One keyword's contribution: add `w` to every category of the keyword's
index entry (when present). -/
def scoreKeywordPass (idx : List (Str × List Str)) (sc : List (Str × ℚ))
    (kw : Str) (w : ℚ) : List (Str × ℚ) :=
  match assocLookup idx kw with
  | none => sc
  | some cats => cats.foldl (fun s c => scoreBump s c w) sc

/-- The keyword list for one input item: the word tokens of its base name
plus the base name itself (a Python set; first-seen order here). -/
def keywordsOf (base : Str) : List Str :=
  let k0 := dedup (pySplitWs (underscoreToSpace base))
  if base ∈ k0 then k0 else k0 ++ [base]

/-- The scoring body of `suggest_categories_for_items_list` for one input
item: keyword scoring (weight 5 for the whole base name, 1 otherwise), then
the family bonus `count * 5.0`. -/
def scoreOneItem (idx : List (Str × List Str))
    (fam : List (Str × List (Str × Nat))) (sc : List (Str × ℚ))
    (itemName : Str) : List (Str × ℚ) :=
  let base := stripToBase itemName
  let sc1 := (keywordsOf base).foldl
    (fun s kw => scoreKeywordPass idx s kw (if kw = base then 5 else 1)) sc
  let fk := afterLast '_' base
  if fk ≠ [] then
    match assocLookup fam fk with
    | some cm => cm.foldl (fun s p => scoreBump s p.1 ((p.2 : ℚ) * 5)) sc1
    | none => sc1
  else sc1

/-- `max(category_scores.values())` over a non-empty list (1 as the Python
code's fallback for the empty dict). -/
def maxQ : List ℚ → ℚ
  | [] => 1
  | [x] => x
  | x :: rest => max x (maxQ rest)

/-- The comparison `sorted(..., key=lambda x: (-x[1], x[0]))` sorts by:
descending score, ties broken by ascending category key. -/
def sugRel (a b : Str × ℚ) : Bool :=
  decide (b.2 < a.2) || (decide (a.2 = b.2) && strLe a.1 b.1)

/-- `BlockPropertiesManager.suggest_categories_for_items_list`, over indices
freshly built from the document.  Scores are exact rationals; the Python
floats involved are integer-valued, so division by the maximum and the
comparisons agree. -/
def suggestCategoriesForItemsList (doc : List Element) (itemNames : List Str) :
    List (Str × ℚ) :=
  let idx := buildSuggestionIndex doc
  if itemNames = [] ∨ idx = [] then []
  else
    let fam := buildFamilyIndex doc
    let scores := itemNames.foldl (scoreOneItem idx fam) []
    let maxScore := maxQ (scores.map Prod.snd)
    let normalized := scores.map
      (fun p => (p.1, if maxScore > 0 then p.2 / maxScore else 0))
    normalized.mergeSort sugRel

-- ### The rule-based auto-mapper (auto_mapper.py)

/-- A parsed rule `(matcher_type, matcher_value, template_name)`. -/
abbrev Rule := Str × Str × Str

/-- `auto_mapper.matches`.  `regexSearch pattern item` stands for
`re.search(pattern, item) is not None` with an invalid pattern giving
`False`; the regex engine is external to the embedding, so it is passed in
as a parameter. -/
def matcherMatches (regexSearch : Str → Str → Bool) (item : Str) (rule : Rule) :
    Bool :=
  if rule.1 = "contains".data then strContainsSub rule.2.1 item
  else if rule.1 = "prefix".data then rule.2.1.isPrefixOf item
  else if rule.1 = "suffix".data then rule.2.1.isSuffixOf item
  else if rule.1 = "exact".data then item = rule.2.1
  else if rule.1 = "regex".data then regexSearch rule.2.1 item
  else false

/-- The inner `for rule in rules ... break` loop: the first matching rule. -/
def firstMatchingRule (regexSearch : Str → Str → Bool) (item : Str) :
    List Rule → Option Rule
  | [] => none
  | r :: rest =>
    if matcherMatches regexSearch item r then some r
    else firstMatchingRule regexSearch item rest

/-- `f"template '{name}' not found"`. -/
def notFoundReason (name : Str) : Str :=
  "template ".data ++ sqc :: (name ++ [sqc]) ++ " not found".data

/-- `"no rule matched"`. -/
def noRuleReason : Str := "no rule matched".data

/-- A falsy resolver result (`None` or an empty key). -/
def falsyKey : Option Str → Bool
  | none => true
  | some k => k.isEmpty

/-- `auto_mapper.automap_items`: the classification loop with its two
result lists accumulated in order. -/
def automapItems (regexSearch : Str → Str → Bool) (newItems : List Str)
    (rules : List Rule) (templateResolver : Str → Option Str) :
    List (Str × Str × Str) × List (Str × Str) :=
  newItems.foldl
    (fun acc item =>
      match firstMatchingRule regexSearch item rules with
      | none => (acc.1, acc.2 ++ [(item, noRuleReason)])
      | some r =>
        let res := templateResolver r.2.2
        if falsyKey res then (acc.1, acc.2 ++ [(item, notFoundReason r.2.2)])
        else
          match res with
          | some k => (acc.1 ++ [(item, r.2.2, k)], acc.2)
          | none => (acc.1, acc.2 ++ [(item, notFoundReason r.2.2)]))
    ([], [])

-- ### General helper lemmas

-- Definitions compiled by well-founded recursion are unsealed so that
-- `decide`/`rfl` can evaluate them on concrete inputs.
unseal List.merge List.mergeSort pySplitWs pySplitChar pySplitOnStr splitlinesAux collectCont parseLines findWords

theorem intercalateNilH {α : Type} (sep : List α) :
    List.intercalate sep ([] : List (List α)) = [] := by
  simp [List.intercalate]

theorem intercalateSingleH {α : Type} (sep x : List α) :
    List.intercalate sep [x] = x := by
  simp [List.intercalate]

theorem intercalateConsH {α : Type} (sep x y : List α) (rest : List (List α)) :
    List.intercalate sep (x :: y :: rest) = x ++ sep ++ List.intercalate sep (y :: rest) := by
  simp [List.intercalate, List.intersperse]

theorem memIntercalate {α : Type} {c : α} {sep : List α} {xs : List (List α)}
    (h : c ∈ List.intercalate sep xs) : c ∈ sep ∨ ∃ x ∈ xs, c ∈ x := by
  induction xs with
  | nil => rw [intercalateNilH] at h; cases h
  | cons x rest ih =>
    cases rest with
    | nil =>
      rw [intercalateSingleH] at h
      exact Or.inr ⟨x, by simp, h⟩
    | cons y rest2 =>
      rw [intercalateConsH] at h
      rcases List.mem_append.mp h with h2 | h2
      · rcases List.mem_append.mp h2 with h3 | h3
        · exact Or.inr ⟨x, by simp, h3⟩
        · exact Or.inl h3
      · rcases ih h2 with h3 | ⟨z, hz, hcz⟩
        · exact Or.inl h3
        · exact Or.inr ⟨z, by simp [hz], hcz⟩

/-- Membership in the flat item collection is membership in some Property. -/
theorem memAllItemValues (doc : List Element) (x : Str) :
    x ∈ allItemValues doc ↔ ∃ p : Property, Element.property p ∈ doc ∧ x ∈ p.allItems := by
  unfold allItemValues
  rw [List.mem_flatten]
  constructor
  · rintro ⟨l, hl, hx⟩
    rw [List.mem_map] at hl
    obtain ⟨e, he, rfl⟩ := hl
    cases e with
    | property p => exact ⟨p, he, hx⟩
    | comment c => simp at hx
    | emptyLine => simp at hx
    | directive c => simp at hx
  · rintro ⟨p, hp, hx⟩
    exact ⟨p.allItems, List.mem_map.mpr ⟨.property p, hp, rfl⟩, hx⟩

theorem addItemKey (p : Property) (item modId : Str) :
    (p.addItem item modId).key = p.key := by
  simp only [Property.addItem]
  split <;> rfl

theorem addItemPreserveFalse (p : Property) (item modId : Str)
    (h : item ∉ p.allItems) : (p.addItem item modId).preserveOriginal = false := by
  simp only [Property.addItem]
  rw [if_neg h]

theorem groupsAppendItemLength (gs : List (Str × List Str)) (gid item : Str) :
    (groupsAppendItem gs gid item).length = gs.length := by
  induction gs with
  | nil => rfl
  | cons g rest ih =>
    obtain ⟨k, l⟩ := g
    simp only [groupsAppendItem]
    split <;> simp [ih]

theorem groupsEnsureNeNil (gs : List (Str × List Str)) (k : Str) :
    groupsEnsure gs k ≠ [] := by
  unfold groupsEnsure
  split
  · rename_i h
    intro hnil
    rw [hnil] at h
    simp [groupsHasKey] at h
  · simp

theorem addItemGroupsNeNil (p : Property) (item modId : Str) :
    (p.addItem item modId).itemGroups ≠ [] := by
  simp only [Property.addItem]
  split
  · exact groupsEnsureNeNil p.itemGroups modId
  · show groupsAppendItem (groupsEnsure p.itemGroups modId) modId item ≠ []
    intro h
    have h2 := groupsAppendItemLength (groupsEnsure p.itemGroups modId) modId item
    rw [h] at h2
    have h3 := groupsEnsureNeNil p.itemGroups modId
    cases hgs : groupsEnsure p.itemGroups modId with
    | nil => exact h3 hgs
    | cons a rest => rw [hgs] at h2; simp at h2

theorem regenKey (p : Property) : (p.regenerateRawValue).key = p.key := rfl

theorem regenGroups (p : Property) :
    (p.regenerateRawValue).itemGroups = p.itemGroups := rfl

theorem regenAllItems (p : Property) :
    (p.regenerateRawValue).allItems = p.allItems := rfl

theorem regenPreserve (p : Property) :
    (p.regenerateRawValue).preserveOriginal = p.preserveOriginal := rfl

theorem toStrOfNotPreserve (p : Property) (h : p.preserveOriginal = false) :
    p.toStr = p.renderGroups := by
  unfold Property.toStr
  rw [h]
  simp

-- ### Claim C4

/-- The C4 failing input: a freshly loaded one-property document with an item
added and undone, so that the redo stack is non-empty and both history
stacks and the description list are empty. -/
def c4manager : Manager :=
  undo (addItemsToCategory
    (loadFile ⟨[], [], [], [], []⟩ (parseLines ["block.1=a b".data])).2
    ["mod:c".data] ("block.1".data) none).2

set_option maxRecDepth 8000 in
/-- C4: `sort_category` on a key that names no category ("nope" here) pops
the just-pushed undo snapshot but leaves the appended action description and
the cleared redo stack: afterwards the description list has one entry while
the undo stack is empty (the 1:1 invariant is broken), and the previously
non-empty redo stack has been emptied.  This evaluates the code at the
failing input of the C4 code bug. -/
theorem c4_sort_category_pollutes_history :
    findProperty c4manager.modifiedElements ("nope".data) = none ∧
    c4manager.historyStack.length = 0 ∧
    c4manager.historyDescriptions.length = 0 ∧
    c4manager.redoStack ≠ [] ∧
    (sortCategory c4manager ("nope".data)).historyStack.length = 0 ∧
    (sortCategory c4manager ("nope".data)).historyDescriptions.length = 1 ∧
    (sortCategory c4manager ("nope".data)).redoStack = [] := by
  decide

-- ### Claim C9

/-- C9: simple-mode `add_items_to_category` where every item to add is
already present in the (existing) target category returns `False` and leaves
the entire manager state unchanged: no history entry, no description, and a
byte-identical serialized document. -/
theorem c9_duplicate_add_noop (m : Manager) (categoryId : Str) (items : List Str)
    (target : Property)
    (hfind : findProperty m.modifiedElements categoryId = some target)
    (hall : ∀ it ∈ items, it ∈ target.allItems) :
    addItemsToCategory m items categoryId none = (false, m) ∧
    (addItemsToCategory m items categoryId none).2.historyStack = m.historyStack ∧
    (addItemsToCategory m items categoryId none).2.historyDescriptions =
      m.historyDescriptions ∧
    serializeElements (addItemsToCategory m items categoryId none).2.modifiedElements =
      serializeElements m.modifiedElements := by
  have hallb : items.all (fun it => decide (it ∈ target.allItems)) = true := by
    rw [List.all_eq_true]
    intro it hit
    exact decide_eq_true (hall it hit)
  have h1 : addItemsToCategory m items categoryId none = (false, m) := by
    unfold addItemsToCategory addItemsSimple
    simp [hfind, hallb]
  exact ⟨h1, by rw [h1], by rw [h1], by rw [h1]⟩

/-- A loaded manager for the C9 witness. -/
def c9manager : Manager :=
  (loadFile ⟨[], [], [], [], []⟩ (parseLines ["block.1=a b".data])).2

/-- The Property `findProperty` returns inside `c9manager`. -/
def c9target : Property :=
  mkProperty ("block.1".data) ("a b".data) (some ("a b".data))

theorem c9_duplicate_add_noop_witness :
    addItemsToCategory c9manager ["a".data] ("block.1".data) none = (false, c9manager) ∧
    (addItemsToCategory c9manager ["a".data] ("block.1".data) none).2.historyStack =
      c9manager.historyStack ∧
    (addItemsToCategory c9manager ["a".data] ("block.1".data) none).2.historyDescriptions =
      c9manager.historyDescriptions ∧
    serializeElements
        (addItemsToCategory c9manager ["a".data] ("block.1".data) none).2.modifiedElements =
      serializeElements c9manager.modifiedElements :=
  c9_duplicate_add_noop c9manager ("block.1".data) ["a".data] c9target
    (by decide) (by decide)

-- ### Claim C3

/-- A 130-character item name, longer than the 120-column wrap budget. -/
def c3long : Str := List.replicate 130 'a'

/-- The serialized document after adding `c3long` to a loaded one-property
document in simple mode (the manager calls `regenerate_raw_value`). -/
def c3out : Str :=
  serializeElements
    (addItemsToCategory
      (loadFile ⟨[], [], [], [], []⟩ (parseLines ["block.1=alpha".data])).2
      [c3long] ("block.1".data) none).2.modifiedElements

set_option maxRecDepth 8000 in
/-- C3 counterexample: after an item-adding call, the serialized Property is
a single line of 145 characters with no backslash continuation at all — the
output is not wrapped at any fixed column budget.  (The 120-column wrapped,
comma-separated text that `regenerate_raw_value` builds goes into the
`original_raw`/`processed_value` attributes, which `to_string` never
reads.) -/
theorem c3_no_column_wrap_counterexample :
    c3out = "block.1=alpha ".data ++ List.replicate 130 'a' ++ ['\n'] ∧
    ('\\' ∉ c3out) ∧ 123 < c3out.length := by
  decide

/-- C3 amended: after a call that adds an item (and after sorting), the
Property stops preserving its original raw cache — serialization no longer
depends on `_original_raw` — and the rebuilt value text is comma-free and
space-joined, one line per non-empty namespace group, lines joined by
` \` + newline + one space of indentation; there is no column-budget
wrapping of the serialized form. -/
theorem c3_canonical_serialization (p : Property) (item modId : Str) (raw : Option Str)
    (hitem : item ∉ p.allItems)
    (hcomma : ∀ g ∈ (p.addItem item modId).itemGroups, ∀ it ∈ g.2, ',' ∉ it)
    (hkey : ',' ∉ p.key) :
    ((p.addItem item modId).regenerateRawValue).preserveOriginal = false ∧
    (p.sortItemsAlphabetically).preserveOriginal = false ∧
    Property.toStr { (p.addItem item modId).regenerateRawValue with originalRawU := raw } =
      p.key ++ ['='] ++
        List.intercalate (' ' :: '\\' :: '\n' :: [' '])
          (((p.addItem item modId).itemGroups.filter (fun g => g.2 ≠ [])).map
            (fun g => joinSpace g.2)) ∧
    ',' ∉ Property.toStr
      { (p.addItem item modId).regenerateRawValue with originalRawU := raw } := by
  have hpres : ((p.addItem item modId).regenerateRawValue).preserveOriginal = false := by
    rw [regenPreserve]
    exact addItemPreserveFalse p item modId hitem
  have hkeyq : ({ (p.addItem item modId).regenerateRawValue with originalRawU := raw }).key
      = p.key := by
    show ((p.addItem item modId).regenerateRawValue).key = p.key
    rw [regenKey, addItemKey]
  have hgroups :
      ({ (p.addItem item modId).regenerateRawValue with originalRawU := raw }).itemGroups
      = (p.addItem item modId).itemGroups := by
    show ((p.addItem item modId).regenerateRawValue).itemGroups = _
    rw [regenGroups]
  have hne : ({ (p.addItem item modId).regenerateRawValue with
      originalRawU := raw }).itemGroups ≠ [] := by
    rw [hgroups]
    exact addItemGroupsNeNil p item modId
  have hstr : Property.toStr
      { (p.addItem item modId).regenerateRawValue with originalRawU := raw } =
      p.key ++ ['='] ++
        List.intercalate (' ' :: '\\' :: '\n' :: [' '])
          (((p.addItem item modId).itemGroups.filter (fun g => g.2 ≠ [])).map
            (fun g => joinSpace g.2)) := by
    have hpres2 : ({ (p.addItem item modId).regenerateRawValue with
        originalRawU := raw }).preserveOriginal = false := hpres
    rw [toStrOfNotPreserve _ hpres2]
    unfold Property.renderGroups
    rw [if_neg hne, hkeyq, hgroups]
  refine ⟨hpres, by simp [Property.sortItemsAlphabetically], hstr, ?_⟩
  rw [hstr]
  intro hmem
  rcases List.mem_append.mp hmem with h2 | h2
  · rcases List.mem_append.mp h2 with h3 | h3
    · exact hkey h3
    · simp at h3
  · rcases memIntercalate h2 with h3 | ⟨x, hx, hcx⟩
    · simp at h3
    · rw [List.mem_map] at hx
      obtain ⟨g, hg, rfl⟩ := hx
      rcases memIntercalate hcx with h4 | ⟨it, hit, hcit⟩
      · simp at h4
      · exact hcomma g (List.mem_of_mem_filter hg) it hit hcit

/-- Concrete instantiation for the C3 witness. -/
def c3prop : Property := mkProperty ("block.1".data) ("alpha".data) (some ("alpha".data))

theorem c3_canonical_serialization_witness :
    ((c3prop.addItem ("mod:b".data) ("mod".data)).regenerateRawValue).preserveOriginal
      = false ∧
    (c3prop.sortItemsAlphabetically).preserveOriginal = false ∧
    Property.toStr { (c3prop.addItem ("mod:b".data) ("mod".data)).regenerateRawValue with
        originalRawU := some ("zz".data) } =
      c3prop.key ++ ['='] ++
        List.intercalate (' ' :: '\\' :: '\n' :: [' '])
          (((c3prop.addItem ("mod:b".data) ("mod".data)).itemGroups.filter
              (fun g => g.2 ≠ [])).map (fun g => joinSpace g.2)) ∧
    ',' ∉ Property.toStr
      { (c3prop.addItem ("mod:b".data) ("mod".data)).regenerateRawValue with
        originalRawU := some ("zz".data) } :=
  c3_canonical_serialization c3prop ("mod:b".data) ("mod".data) (some ("zz".data))
    (by decide) (by decide) (by decide)

-- ### Claim C6

/-- The claim's notion of base name, following the claim's words: the
namespace qualifier and the bracketed state suffix stripped away. -/
def specBaseNameC6 (item : Str) : Str := beforeFirst '[' (afterLast ':' item)

/-- A document whose only item is `minecraft:oak_stairs`. -/
def c6doc : List Element := parseLines ["block.1=minecraft:oak_stairs".data]

/-- C6 counterexample: `minecraft:diamond_block` is not present exactly, and
its base name in the claim's sense (`diamond_block`) matches no known base
name, so the claim requires NEW — but the code compares the text before the
first colon (the namespace, `minecraft`) and answers PARTIAL. -/
theorem c6_counterexample :
    checkItemExistence c6doc ("minecraft:diamond_block".data) = "PARTIAL".data ∧
    ("minecraft:diamond_block".data ∉ allItemValues c6doc) ∧
    specBaseNameC6 ("minecraft:diamond_block".data) ∉
      (allItemValues c6doc).map specBaseNameC6 := by
  decide

/-- C6 amended: the result is EXISTS exactly when the item string occurs in
some Property of the document; otherwise PARTIAL exactly when the item's
namespace prefix — the text before the first `:` (bracket-stripped, the whole
name when there is no colon) — equals the namespace prefix of some item in
the document; otherwise NEW. -/
theorem c6_check_item_existence (doc : List Element) (item : Str) :
    (checkItemExistence doc item = "EXISTS".data ↔
      ∃ p : Property, Element.property p ∈ doc ∧ item ∈ p.allItems) ∧
    (checkItemExistence doc item = "PARTIAL".data ↔
      item ∉ allItemValues doc ∧
        ∃ v ∈ allItemValues doc, cieBase v = cieBase item) ∧
    (checkItemExistence doc item = "NEW".data ↔
      item ∉ allItemValues doc ∧
        ∀ v ∈ allItemValues doc, cieBase v ≠ cieBase item) := by
  by_cases h1 : item ∈ allItemValues doc
  · unfold checkItemExistence
    rw [if_pos h1]
    refine ⟨?_, ?_, ?_⟩
    · simp [← memAllItemValues, h1]
    · constructor
      · intro h; exact absurd h (by decide)
      · rintro ⟨hn, -⟩; exact absurd h1 hn
    · constructor
      · intro h; exact absurd h (by decide)
      · rintro ⟨hn, -⟩; exact absurd h1 hn
  · by_cases h2 : cieBase item ∈ (allItemValues doc).map cieBase
    · unfold checkItemExistence
      rw [if_neg h1, if_pos h2]
      refine ⟨?_, ?_, ?_⟩
      · constructor
        · intro h; exact absurd h (by decide)
        · rw [← memAllItemValues]; intro h; exact absurd h h1
      · simp only [List.mem_map] at h2
        simp [h1, h2]
      · constructor
        · intro h; exact absurd h (by decide)
        · rintro ⟨-, hall⟩
          rw [List.mem_map] at h2
          obtain ⟨v, hv, hveq⟩ := h2
          exact absurd hveq (hall v hv)
    · unfold checkItemExistence
      rw [if_neg h1, if_neg h2]
      refine ⟨?_, ?_, ?_⟩
      · constructor
        · intro h; exact absurd h (by decide)
        · rw [← memAllItemValues]; intro h; exact absurd h h1
      · constructor
        · intro h; exact absurd h (by decide)
        · rintro ⟨-, v, hv, hveq⟩
          exact absurd (List.mem_map.mpr ⟨v, hv, hveq⟩) h2
      · refine ⟨fun _ => ⟨h1, fun v hv hveq => ?_⟩, fun _ => rfl⟩
        exact h2 (List.mem_map.mpr ⟨v, hv, hveq⟩)

-- ### Order lemmas for the string comparison

theorem strLeTotal (a b : Str) : strLe a b = true ∨ strLe b a = true := by
  induction a generalizing b with
  | nil => left; rfl
  | cons x as ih =>
    cases b with
    | nil => right; rfl
    | cons y bs =>
      by_cases h1 : x.toNat < y.toNat
      · left; simp [strLe, h1]
      · by_cases h2 : y.toNat < x.toNat
        · right; simp [strLe, h2]
        · rcases ih bs with h | h
          · left; simp [strLe, h1, h2, h]
          · right; simp [strLe, h1, h2, h]

theorem strLeTrans : ∀ (a b c : Str),
    strLe a b = true → strLe b c = true → strLe a c = true := by
  intro a
  induction a with
  | nil => intro b c _ _; rfl
  | cons x as ih =>
    intro b c h1 h2
    cases b with
    | nil => exact absurd h1 (by simp [strLe])
    | cons y bs =>
      cases c with
      | nil => exact absurd h2 (by simp [strLe])
      | cons z cs =>
        simp only [strLe] at h1 h2 ⊢
        by_cases hxy : x.toNat < y.toNat
        · rw [if_pos hxy] at h1
          by_cases hyz : y.toNat < z.toNat
          · rw [if_pos (by omega)]
          · rw [if_neg hyz] at h2
            by_cases hzy : z.toNat < y.toNat
            · rw [if_pos hzy] at h2; exact absurd h2 (by simp)
            · rw [if_pos (by omega)]
        · rw [if_neg hxy] at h1
          by_cases hyx : y.toNat < x.toNat
          · rw [if_pos hyx] at h1; exact absurd h1 (by simp)
          · rw [if_neg hyx] at h1
            by_cases hyz : y.toNat < z.toNat
            · rw [if_pos (by omega)]
            · rw [if_neg hyz] at h2
              by_cases hzy : z.toNat < y.toNat
              · rw [if_pos hzy] at h2; exact absurd h2 (by simp)
              · rw [if_neg hzy] at h2
                rw [if_neg (by omega), if_neg (by omega)]
                exact ih bs cs h1 h2

theorem strLeTotalOr (a b : Str) : (strLe a b || strLe b a) = true := by
  rcases strLeTotal a b with h | h <;> simp [h]

-- ### updateFirstProp and findProperty

theorem updateFirstPropSpec (doc : List Element) (k : Str) (f : Property → Property)
    (p : Property) (h : findProperty doc k = some p) :
    ∃ pre post, doc = pre ++ Element.property p :: post ∧
      updateFirstProp doc k f = pre ++ Element.property (f p) :: post ∧
      ∀ q : Property, Element.property q ∈ pre → q.key ≠ k := by
  induction doc with
  | nil => simp [findProperty] at h
  | cons e rest ih =>
    cases e with
    | property p2 =>
      by_cases hk : p2.key = k
      · rw [findProperty, if_pos hk] at h
        obtain rfl := Option.some.inj h
        refine ⟨[], rest, by simp, ?_, by simp⟩
        simp [updateFirstProp, hk]
      · rw [findProperty, if_neg hk] at h
        obtain ⟨pre, post, hd, hu, hpre⟩ := ih h
        refine ⟨Element.property p2 :: pre, post, by simp [hd], ?_, ?_⟩
        · simp only [updateFirstProp, if_neg hk, hu]
          rfl
        · intro q hq
          rcases List.mem_cons.mp hq with heq | hq2
          · obtain rfl : q = p2 := by
              injection heq
            exact hk
          · exact hpre q hq2
    | comment ctext =>
      simp only [findProperty] at h
      obtain ⟨pre, post, hd, hu, hpre⟩ := ih h
      refine ⟨Element.comment ctext :: pre, post, by simp [hd], ?_, ?_⟩
      · simp only [updateFirstProp, hu]
        rfl
      · intro q hq
        rcases List.mem_cons.mp hq with heq | hq2
        · cases heq
        · exact hpre q hq2
    | emptyLine =>
      simp only [findProperty] at h
      obtain ⟨pre, post, hd, hu, hpre⟩ := ih h
      refine ⟨Element.emptyLine :: pre, post, by simp [hd], ?_, ?_⟩
      · simp only [updateFirstProp, hu]
        rfl
      · intro q hq
        rcases List.mem_cons.mp hq with heq | hq2
        · cases heq
        · exact hpre q hq2
    | directive ctext =>
      simp only [findProperty] at h
      obtain ⟨pre, post, hd, hu, hpre⟩ := ih h
      refine ⟨Element.directive ctext :: pre, post, by simp [hd], ?_, ?_⟩
      · simp only [updateFirstProp, hu]
        rfl
      · intro q hq
        rcases List.mem_cons.mp hq with heq | hq2
        · cases heq
        · exact hpre q hq2

theorem saveModified (m : Manager) (d : Str) :
    (saveStateForUndo m d).modifiedElements = m.modifiedElements := by
  unfold saveStateForUndo
  split <;> rfl

-- ### Claim C10

/-- C10: on an existing category, `sort_category` replaces exactly the first
Property with that key (every earlier element is not a Property with that
key and stays; every other element stays): its key and `allItems` are
unchanged, each namespace group is replaced by its lexicographically sorted
permutation, and nothing else in the document changes. -/
theorem c10_sort_category_frame (m : Manager) (categoryId : Str) (target : Property)
    (hfind : findProperty m.modifiedElements categoryId = some target) :
    ∃ pre post,
      m.modifiedElements = pre ++ Element.property target :: post ∧
      (sortCategory m categoryId).modifiedElements =
        pre ++ Element.property (sortRegen target) :: post ∧
      (∀ q : Property, Element.property q ∈ pre → q.key ≠ categoryId) ∧
      (sortRegen target).key = target.key ∧
      (sortRegen target).allItems = target.allItems ∧
      (sortRegen target).itemGroups =
        target.itemGroups.map (fun g => (g.1, g.2.mergeSort strLe)) ∧
      ∀ g ∈ target.itemGroups,
        (g.2.mergeSort strLe).Perm g.2 ∧
        List.Sorted (fun a b => strLe a b = true) (g.2.mergeSort strLe) := by
  have hsave : (saveStateForUndo m (sortedDesc categoryId)).modifiedElements
      = m.modifiedElements := saveModified m _
  have hfind2 : findProperty
      (saveStateForUndo m (sortedDesc categoryId)).modifiedElements categoryId
      = some target := by rw [hsave]; exact hfind
  obtain ⟨pre, post, hd, hu, hpre⟩ :=
    updateFirstPropSpec _ categoryId sortRegen target hfind2
  have hsorted : (sortCategory m categoryId).modifiedElements =
      updateFirstProp (saveStateForUndo m (sortedDesc categoryId)).modifiedElements
        categoryId sortRegen := by
    simp only [sortCategory, hfind2]
  refine ⟨pre, post, by rw [← hsave]; exact hd, by rw [hsorted]; exact hu, hpre,
    rfl, rfl, rfl, ?_⟩
  intro g hg
  exact ⟨List.mergeSort_perm g.2 strLe,
    List.sorted_mergeSort strLeTrans strLeTotalOr g.2⟩

/-- A loaded manager for the C10 witness. -/
def c10manager : Manager :=
  (loadFile ⟨[], [], [], [], []⟩ (parseLines ["block.1=b a".data])).2

/-- The Property `findProperty` returns inside `c10manager`. -/
def c10target : Property :=
  mkProperty ("block.1".data) ("b a".data) (some ("b a".data))

theorem c10_sort_category_frame_witness :
    ∃ pre post,
      c10manager.modifiedElements = pre ++ Element.property c10target :: post ∧
      (sortCategory c10manager ("block.1".data)).modifiedElements =
        pre ++ Element.property (sortRegen c10target) :: post ∧
      (∀ q : Property, Element.property q ∈ pre → q.key ≠ "block.1".data) ∧
      (sortRegen c10target).key = c10target.key ∧
      (sortRegen c10target).allItems = c10target.allItems ∧
      (sortRegen c10target).itemGroups =
        c10target.itemGroups.map (fun g => (g.1, g.2.mergeSort strLe)) ∧
      ∀ g ∈ c10target.itemGroups,
        (g.2.mergeSort strLe).Perm g.2 ∧
        List.Sorted (fun a b => strLe a b = true) (g.2.mergeSort strLe) :=
  c10_sort_category_frame c10manager ("block.1".data) c10target (by decide)

-- ### Claim C8

/-- The per-item mapped disposition of `automap_items`: the first matching
rule's template, resolved; `none` when the item lands in the unmapped list. -/
def automapMapF (regexSearch : Str → Str → Bool) (rules : List Rule)
    (resolver : Str → Option Str) (item : Str) : Option (Str × Str × Str) :=
  match firstMatchingRule regexSearch item rules with
  | none => none
  | some r =>
    match resolver r.2.2 with
    | none => none
    | some k => if k.isEmpty then none else some (item, r.2.2, k)

/-- The per-item unmapped disposition of `automap_items` with its reason. -/
def automapUnmapF (regexSearch : Str → Str → Bool) (rules : List Rule)
    (resolver : Str → Option Str) (item : Str) : Option (Str × Str) :=
  match firstMatchingRule regexSearch item rules with
  | none => some (item, noRuleReason)
  | some r =>
    if falsyKey (resolver r.2.2) then some (item, notFoundReason r.2.2) else none

theorem automapItemsEq (rs : Str → Str → Bool) (rules : List Rule)
    (resolver : Str → Option Str) :
    ∀ (items : List Str) (acc : List (Str × Str × Str) × List (Str × Str)),
      items.foldl
        (fun acc item =>
          match firstMatchingRule rs item rules with
          | none => (acc.1, acc.2 ++ [(item, noRuleReason)])
          | some r =>
            let res := resolver r.2.2
            if falsyKey res then (acc.1, acc.2 ++ [(item, notFoundReason r.2.2)])
            else
              match res with
              | some k => (acc.1 ++ [(item, r.2.2, k)], acc.2)
              | none => (acc.1, acc.2 ++ [(item, notFoundReason r.2.2)])) acc =
      (acc.1 ++ items.filterMap (automapMapF rs rules resolver),
       acc.2 ++ items.filterMap (automapUnmapF rs rules resolver)) := by
  intro items
  induction items with
  | nil => intro acc; simp
  | cons item rest ih =>
    intro acc
    rw [List.foldl_cons, ih, List.filterMap_cons, List.filterMap_cons]
    unfold automapMapF automapUnmapF
    cases hfm : firstMatchingRule rs item rules with
    | none => simp [hfm]
    | some r =>
      cases hres : resolver r.2.2 with
      | none => simp [hfm, hres, falsyKey]
      | some k =>
        by_cases hk : k.isEmpty
        · simp [hfm, hres, falsyKey, hk]
        · simp [hfm, hres, falsyKey, hk]

theorem firstMatchingOfSplit (rs : Str → Str → Bool) (item : Str) :
    ∀ (pre : List Rule) (r : Rule) (post : List Rule),
      matcherMatches rs item r = true →
      (∀ r2 ∈ pre, matcherMatches rs item r2 = false) →
      firstMatchingRule rs item (pre ++ r :: post) = some r := by
  intro pre
  induction pre with
  | nil => intro r post hm _; simp [firstMatchingRule, hm]
  | cons r2 pre2 ih =>
    intro r post hm hpre
    have h2 := hpre r2 (by simp)
    simp only [List.cons_append, firstMatchingRule, h2]
    rw [if_neg (by simp)]
    exact ih r post hm (fun r3 h3 => hpre r3 (by simp [h3]))

/-- C8: `automap_items` classifies each item independently by the first rule
in order whose matcher matches it (first-match-wins); an item with no
matching rule is unmapped with reason "no rule matched"; an item whose first
matching rule's template does not resolve is unmapped with the
"template '<name>' not found" reason; otherwise it is mapped to
(item, templateName, resolvedTargetKey).  The function is a pure function of
its inputs and returns only these two lists — it does not touch any
document. -/
theorem c8_automap_first_match (rs : Str → Str → Bool) (items : List Str)
    (rules : List Rule) (resolver : Str → Option Str) :
    automapItems rs items rules resolver =
      (items.filterMap (automapMapF rs rules resolver),
       items.filterMap (automapUnmapF rs rules resolver)) ∧
    (∀ (item : Str) (pre : List Rule) (r : Rule) (post : List Rule),
      rules = pre ++ r :: post →
      matcherMatches rs item r = true →
      (∀ r2 ∈ pre, matcherMatches rs item r2 = false) →
      firstMatchingRule rs item rules = some r) ∧
    (∀ (item tmpl k : Str), (item, tmpl, k) ∈ (automapItems rs items rules resolver).1 →
      ∃ r : Rule, firstMatchingRule rs item rules = some r ∧ r.2.2 = tmpl ∧
        resolver tmpl = some k ∧ k ≠ []) ∧
    (∀ item ∈ items, firstMatchingRule rs item rules = none →
      (item, noRuleReason) ∈ (automapItems rs items rules resolver).2) := by
  have hchar : automapItems rs items rules resolver =
      (items.filterMap (automapMapF rs rules resolver),
       items.filterMap (automapUnmapF rs rules resolver)) := by
    unfold automapItems
    rw [automapItemsEq rs rules resolver items ([], [])]
    simp
  refine ⟨hchar, ?_, ?_, ?_⟩
  · intro item pre r post hru hmatch hpre
    subst hru
    exact firstMatchingOfSplit rs item pre r post hmatch hpre
  · intro item tmpl k hmem
    rw [hchar] at hmem
    simp only [List.mem_filterMap] at hmem
    obtain ⟨a, ha, hfa⟩ := hmem
    unfold automapMapF at hfa
    cases hfm : firstMatchingRule rs a rules with
    | none => simp [hfm] at hfa
    | some r =>
      cases hres : resolver r.2.2 with
      | none => simp [hfm, hres] at hfa
      | some k2 =>
        by_cases hk : k2.isEmpty
        · simp [hfm, hres, hk] at hfa
        · simp only [hfm, hres, hk, Bool.false_eq_true, if_false,
            Option.some.injEq, Prod.mk.injEq] at hfa
          obtain ⟨rfl, rfl, rfl⟩ := hfa
          refine ⟨r, hfm, rfl, hres, fun hnil => ?_⟩
          rw [hnil] at hk
          exact hk rfl
  · intro item hitem hnone
    rw [hchar]
    simp only [List.mem_filterMap]
    refine ⟨item, hitem, ?_⟩
    unfold automapUnmapF
    rw [hnone]

-- ### Claim C2

/-- One history-recording mutating operation: every mutating operation of
the manager (`add_items_to_category` on its mutating paths, `sort_category`
on an existing category, `create_new_category`) first calls
`_save_state_for_undo` with its description and then updates
`modified_elements` in place; `op.1` is that update. -/
def applyMutOp (m : Manager) (op : (List Element → List Element) × Str) : Manager :=
  let m1 := saveStateForUndo m op.2
  { m1 with modifiedElements := op.1 m1.modifiedElements }

/-- A sequence of history-recording mutating operations. -/
def applyMutOps (m : Manager)
    (ops : List ((List Element → List Element) × Str)) : Manager :=
  ops.foldl applyMutOp m

/-- The documents after each successive operation. -/
def opTrace (doc : List Element) :
    List ((List Element → List Element) × Str) → List (List Element)
  | [] => []
  | op :: rest => op.1 doc :: opTrace (op.1 doc) rest

theorem undoNSucc (n : Nat) (x : Manager) : undoN (n + 1) x = undo (undoN n x) := by
  induction n generalizing x with
  | zero => rfl
  | succ k ih =>
    show undoN (k + 1) (undo x) = undo (undoN (k + 1) x)
    rw [ih (undo x)]
    rfl

theorem saveStateOfNonempty (m : Manager) (d : Str) (hm : m.modifiedElements ≠ []) :
    saveStateForUndo m d =
      { originalElements := m.originalElements,
        modifiedElements := m.modifiedElements,
        historyStack := m.modifiedElements :: m.historyStack,
        redoStack := [],
        historyDescriptions := d :: m.historyDescriptions } := by
  unfold saveStateForUndo
  rw [if_pos hm]

theorem applyMutOpOfNonempty (m : Manager) (op : (List Element → List Element) × Str)
    (hm : m.modifiedElements ≠ []) :
    applyMutOp m op =
      { originalElements := m.originalElements,
        modifiedElements := op.1 m.modifiedElements,
        historyStack := m.modifiedElements :: m.historyStack,
        redoStack := [],
        historyDescriptions := op.2 :: m.historyDescriptions } := by
  unfold applyMutOp
  rw [saveStateOfNonempty m op.2 hm]

theorem undoAllRestores :
    ∀ (ops : List ((List Element → List Element) × Str)) (m : Manager),
      m.modifiedElements ≠ [] →
      (∀ op ∈ ops, ∀ d : List Element, d ≠ [] → op.1 d ≠ []) →
      undoN ops.length (applyMutOps m ops) =
        { m with redoStack := if ops.isEmpty then m.redoStack
                              else opTrace m.modifiedElements ops } := by
  intro ops
  induction ops with
  | nil => intro m hm hp; simp [applyMutOps, undoN]
  | cons op rest ih =>
    intro m hm hp
    have hm1 : (applyMutOp m op).modifiedElements ≠ [] := by
      rw [applyMutOpOfNonempty m op hm]
      exact hp op (by simp) m.modifiedElements hm
    have happ : applyMutOps m (op :: rest) = applyMutOps (applyMutOp m op) rest := rfl
    rw [List.length_cons, happ, undoNSucc,
      ih (applyMutOp m op) hm1 (fun o ho => hp o (by simp [ho]))]
    rw [applyMutOpOfNonempty m op hm]
    cases rest with
    | nil => simp [undo, opTrace]
    | cons op2 rest2 => simp [undo, opTrace]

theorem redoNReplays : ∀ (L : List (List Element)) (m : Manager),
    m.redoStack = L →
    (redoN L.length m).modifiedElements = L.getLastD m.modifiedElements := by
  intro L
  induction L with
  | nil => intro m h; rfl
  | cons x rest ih =>
    intro m h
    rw [List.length_cons]
    show (redoN rest.length (redo m)).modifiedElements = _
    have hr : redo m =
        { originalElements := m.originalElements,
          modifiedElements := x,
          historyStack := m.modifiedElements :: m.historyStack,
          redoStack := rest,
          historyDescriptions := m.historyDescriptions } := by
      simp only [redo, h]
    rw [hr, ih _ rfl]
    cases rest with
    | nil => rfl
    | cons y t => simp only [List.getLastD_cons]

theorem applyMutOpsModified : ∀ (ops : List ((List Element → List Element) × Str))
    (m : Manager),
    (applyMutOps m ops).modifiedElements =
      (opTrace m.modifiedElements ops).getLastD m.modifiedElements := by
  intro ops
  induction ops with
  | nil => intro m; rfl
  | cons op rest ih =>
    intro m
    have happ : applyMutOps m (op :: rest) = applyMutOps (applyMutOp m op) rest := rfl
    rw [happ, ih (applyMutOp m op)]
    have hmod : (applyMutOp m op).modifiedElements = op.1 m.modifiedElements := by
      show op.1 (saveStateForUndo m op.2).modifiedElements = op.1 m.modifiedElements
      rw [saveModified]
    rw [hmod, opTrace, List.getLastD_cons]

theorem opTraceLength (doc : List Element)
    (ops : List ((List Element → List Element) × Str)) :
    (opTrace doc ops).length = ops.length := by
  induction ops generalizing doc with
  | nil => rfl
  | cons op rest ih => simp [opTrace, ih]

/-- C2: with a loaded (non-empty) document, after any sequence of N
history-recording mutating operations, N undos restore the modified
document, the undo stack and the description list exactly; N redos then
restore the modified document exactly to its post-sequence state; and when
the pre-sequence state is the freshly loaded one, the restored document is
structurally equal to the original. -/
theorem c2_undo_redo_symmetry (m : Manager)
    (ops : List ((List Element → List Element) × Str))
    (hm : m.modifiedElements ≠ [])
    (hp : ∀ op ∈ ops, ∀ d : List Element, d ≠ [] → op.1 d ≠ []) :
    (undoN ops.length (applyMutOps m ops)).modifiedElements = m.modifiedElements ∧
    (undoN ops.length (applyMutOps m ops)).historyStack = m.historyStack ∧
    (undoN ops.length (applyMutOps m ops)).historyDescriptions =
      m.historyDescriptions ∧
    (redoN ops.length (undoN ops.length (applyMutOps m ops))).modifiedElements =
      (applyMutOps m ops).modifiedElements ∧
    (m.modifiedElements = m.originalElements →
      (undoN ops.length (applyMutOps m ops)).modifiedElements =
        m.originalElements) := by
  have h1 := undoAllRestores ops m hm hp
  rw [h1]
  refine ⟨rfl, rfl, rfl, ?_, fun h => h⟩
  cases hops : ops with
  | nil => rfl
  | cons op rest =>
    have hlen : ops.length = (opTrace m.modifiedElements ops).length :=
      (opTraceLength m.modifiedElements ops).symm
    have hne : ops.isEmpty = false := by rw [hops]; rfl
    rw [← hops, hne]
    simp only [Bool.false_eq_true, if_false]
    rw [hlen, redoNReplays (opTrace m.modifiedElements ops) _ rfl]
    rw [applyMutOpsModified]

/-- A loaded manager and one concrete mutating operation for the witness. -/
def c2manager : Manager :=
  (loadFile ⟨[], [], [], [], []⟩ (parseLines ["# c".data])).2

/-- A concrete history-recording operation: append a blank line. -/
def c2op : (List Element → List Element) × Str :=
  (fun d => d ++ [Element.emptyLine], "append blank".data)

theorem c2_undo_redo_symmetry_witness :
    (undoN [c2op].length (applyMutOps c2manager [c2op])).modifiedElements =
      c2manager.modifiedElements ∧
    (undoN [c2op].length (applyMutOps c2manager [c2op])).historyStack =
      c2manager.historyStack ∧
    (undoN [c2op].length (applyMutOps c2manager [c2op])).historyDescriptions =
      c2manager.historyDescriptions ∧
    (redoN [c2op].length
        (undoN [c2op].length (applyMutOps c2manager [c2op]))).modifiedElements =
      (applyMutOps c2manager [c2op]).modifiedElements ∧
    (c2manager.modifiedElements = c2manager.originalElements →
      (undoN [c2op].length (applyMutOps c2manager [c2op])).modifiedElements =
        c2manager.originalElements) :=
  c2_undo_redo_symmetry c2manager [c2op] (by decide)
    (by
      intro op hop d hd
      rw [List.mem_singleton] at hop
      subst hop
      simp [c2op])

-- ### Claim C1

/-- The well-formedness of an input (as a list of lines) under which the
round trip is byte-identical: only the four element kinds occur (no
unparsed lines), every whitespace-only line is exactly empty, and every
property-start line's key carries no surrounding whitespace.  The scan
mirrors `parseLines`, skipping consumed continuation lines. -/
def goodLines : List Str → Bool
  | [] => true
  | line :: rest =>
    let stripped := pyStrip line
    if stripped = [] then line.isEmpty && goodLines rest
    else if isDirectiveLine stripped then goodLines rest
    else if ['#'].isPrefixOf stripped then goodLines rest
    else if line.contains '=' then
      decide (pyStrip (line.takeWhile (fun c => c ≠ '=')) =
        line.takeWhile (fun c => c ≠ '=')) &&
      goodLines (collectCont ((line.dropWhile (fun c => c ≠ '=')).tail) rest).2
    else false
termination_by l => l.length
decreasing_by
  all_goals simp only [List.length_cons]
  all_goals first
    | omega
    | exact Nat.lt_succ_of_le (collectContRestLe _ _)

unseal goodLines

/-- C1 counterexample: the single Property line `a = b` (one of the four
element kinds, with no continuations) does not round-trip byte-identically:
the parser strips the key, so serialization yields `a= b`. -/
theorem c1_round_trip_counterexample :
    serializeElements (parseLines ["a = b".data]) ≠ unlines ["a = b".data] ∧
    serializeElements (parseLines ["a = b".data]) = "a= b
".data := by
  decide

theorem serializeConsH (e : Element) (rest : List Element) :
    serializeElements (e :: rest) = e.toStr ++ '\n' :: serializeElements rest := by
  simp [serializeElements]

theorem unlinesConsH (l : Str) (rest : List Str) :
    unlines (l :: rest) = l ++ '\n' :: unlines rest := by
  simp [unlines]

theorem unlinesAppendH (a b : List Str) :
    unlines (a ++ b) = unlines a ++ unlines b := by
  simp [unlines]

theorem joinNlNewline : ∀ (x : Str) (xs : List Str),
    joinNl (x :: xs) ++ ['\n'] = unlines (x :: xs) := by
  intro x xs
  induction xs generalizing x with
  | nil => simp [joinNl, unlines, intercalateSingleH]
  | cons y ys ih =>
    have h1 : joinNl (x :: y :: ys) = x ++ ['\n'] ++ joinNl (y :: ys) :=
      intercalateConsH _ x y ys
    rw [h1, unlinesConsH]
    rw [List.append_assoc, List.append_assoc, ih y]
    simp

theorem containsEqSplit : ∀ (line : Str), line.contains '=' = true →
    line = line.takeWhile (fun c => c ≠ '=') ++
      '=' :: (line.dropWhile (fun c => c ≠ '=')).tail := by
  intro line
  induction line with
  | nil => intro h; simp at h
  | cons c rest ih =>
    intro h
    by_cases hc : c = '='
    · subst hc
      simp [List.takeWhile_cons, List.dropWhile_cons]
    · have h2 : rest.contains '=' = true := by
        simp only [List.contains_cons] at h
        rcases Bool.or_eq_true_iff.mp h with h3 | h3
        · exact absurd (beq_iff_eq.mp h3).symm hc
        · exact h3
      have hck : (decide (c ≠ '=')) = true := by simp [hc]
      simp only [List.takeWhile_cons, List.dropWhile_cons, hck, if_true]
      rw [List.cons_append]
      exact congrArg (c :: ·) (ih h2)

theorem collectContFirstNe (cur : Str) (rest : List Str) :
    (collectCont cur rest).1 ≠ [] := by
  cases rest with
  | nil =>
    rw [collectCont]
    split <;> simp
  | cons nxt rest2 =>
    rw [collectCont]
    split <;> simp

theorem joinNlEqNil (x : Str) (xs : List Str) (h : joinNl (x :: xs) = []) :
    x = [] ∧ xs = [] := by
  cases xs with
  | nil => rw [joinNl, intercalateSingleH] at h; exact ⟨h, rfl⟩
  | cons y ys =>
    rw [joinNl, intercalateConsH] at h
    simp at h

/-- The serialization of a Property whose raw value after `=` was empty. -/
theorem mkPropertyEmptyToStr (key : Str) :
    (mkProperty key [] (some [])).toStr = key ++ ['='] := by
  rfl

theorem c1aux : ∀ (n : Nat) (lines : List Str), lines.length ≤ n →
    goodLines lines = true →
    serializeElements (parseLines lines) = unlines lines := by
  intro n
  induction n with
  | zero =>
    intro lines hlen _
    have h0 : lines = [] := List.length_eq_zero.mp (Nat.le_zero.mp hlen)
    subst h0
    rfl
  | succ k ih =>
    intro lines hlen hg
    cases lines with
    | nil => rfl
    | cons line rest =>
      rw [parseLines]
      rw [goodLines] at hg
      simp only [] at hg ⊢
      by_cases h1 : pyStrip line = []
      · rw [if_pos h1] at hg ⊢
        rw [Bool.and_eq_true] at hg
        have hline : line = [] := by
          have := hg.1
          rwa [List.isEmpty_iff] at this
        rw [serializeConsH, unlinesConsH, hline,
          ih rest (by simpa using Nat.le_of_succ_le_succ hlen) hg.2]
        rfl
      · rw [if_neg h1] at hg ⊢
        by_cases h2 : isDirectiveLine (pyStrip line) = true
        · rw [if_pos h2] at hg ⊢
          rw [serializeConsH, unlinesConsH,
            ih rest (by simpa using Nat.le_of_succ_le_succ hlen) hg]
          rfl
        · rw [if_neg h2] at hg ⊢
          by_cases h3 : ['#'].isPrefixOf (pyStrip line) = true
          · rw [if_pos h3] at hg ⊢
            rw [serializeConsH, unlinesConsH,
              ih rest (by simpa using Nat.le_of_succ_le_succ hlen) hg]
            rfl
          · rw [if_neg h3] at hg ⊢
            by_cases h4 : line.contains '=' = true
            · rw [if_pos h4] at hg ⊢
              rw [Bool.and_eq_true, decide_eq_true_eq] at hg
              obtain ⟨hkey, hgrest⟩ := hg
              set keyPart := line.takeWhile (fun c => c ≠ '=') with hkp
              set afterEq := (line.dropWhile (fun c => c ≠ '=')).tail with hae
              set cr := collectCont afterEq rest with hcr
              have hsplit : line = keyPart ++ '=' :: afterEq := containsEqSplit line h4
              have happend : cr.1 ++ cr.2 = afterEq :: rest := collectContAppend afterEq rest
              have hfne : cr.1 ≠ [] := collectContFirstNe afterEq rest
              obtain ⟨t, ht⟩ : ∃ t, cr.1 = afterEq :: t := by
                cases hc1 : cr.1 with
                | nil => exact absurd hc1 hfne
                | cons a t =>
                  rw [hc1] at happend
                  have ha : a = afterEq := by
                    have h5 := congrArg (fun l => l.head?) happend
                    simpa using h5
                  subst ha
                  exact ⟨t, rfl⟩
              have hrest : rest = t ++ cr.2 := by
                rw [ht] at happend
                have := List.cons.inj happend
                exact this.2.symm
              have hlen2 : cr.2.length ≤ k := by
                have hr := collectContRestLe afterEq rest
                rw [← hcr] at hr
                simp only [List.length_cons] at hlen
                omega
              have hih := ih cr.2 hlen2 hgrest
              rw [serializeConsH, hih]
              rw [hrest, unlinesConsH, unlinesAppendH]
              -- remaining: toStr of the property ++ newline = line ++ newline ++ unlines t
              by_cases hraw : joinNl cr.1 = []
              · obtain ⟨hani, htni⟩ := joinNlEqNil afterEq t (by rw [← ht]; exact hraw)
                subst htni
                have hstr : (mkProperty (pyStrip keyPart) (pyLstrip (joinNl
                    (List.map stripContBackslash cr.1))) (some (joinNl cr.1))).toStr =
                    pyStrip keyPart ++ ['='] := by
                  rw [hraw, ht, hani]
                  exact mkPropertyEmptyToStr (pyStrip keyPart)
                simp only [Element.toStr]
                rw [hstr, hkey, hsplit, hani]
                simp [unlines]
              · have hstr : (mkProperty (pyStrip keyPart) (pyLstrip (joinNl
                    (List.map stripContBackslash cr.1))) (some (joinNl cr.1))).toStr =
                    pyStrip keyPart ++ '=' :: joinNl cr.1 := by
                  unfold mkProperty Property.toStr
                  simp [hraw]
                simp only [Element.toStr]
                rw [hstr, hkey, hsplit, ht]
                have hjn : joinNl (afterEq :: t) ++ ['\n'] = unlines (afterEq :: t) :=
                  joinNlNewline afterEq t
                rw [unlinesConsH] at hjn
                have hmid : joinNl (afterEq :: t) ++ '\n' :: unlines cr.2 =
                    afterEq ++ '\n' :: (unlines t ++ unlines cr.2) := by
                  have h6 : joinNl (afterEq :: t) ++ '\n' :: unlines cr.2 =
                      (joinNl (afterEq :: t) ++ ['\n']) ++ unlines cr.2 := by simp
                  rw [h6, hjn]
                  simp
                simp only [List.append_assoc, List.cons_append]
                rw [hmid]
            · rw [if_neg h4] at hg
              exact absurd hg (by simp)

/-- C1 amended: parse-then-serialize is byte-identical to the input for every
text of the four element kinds with well-formed continuations, provided
additionally that every whitespace-only line is exactly empty and no
property line has whitespace around its key; hence any number of
load-then-serialize cycles preserves the bytes. -/
theorem c1_round_trip (lines : List Str) (hg : goodLines lines = true) :
    serializeElements (parseLines lines) = unlines lines :=
  c1aux lines.length lines (Nat.le_refl _) hg

/-- Input lines exercising all four element kinds and a continuation. -/
def c1wLines : List Str :=
  ["# header".data, "".data, "#ifdef A".data, "block.1=a b \\".data,
   " mod:c mod:d".data, "#endif".data]

theorem c1_round_trip_witness :
    serializeElements (parseLines c1wLines) = unlines c1wLines :=
  c1_round_trip c1wLines (by decide)

-- ### Claim C5: lemmas about the variation collection

theorem foldlInv {α β : Type} (P : α → Prop) (f : α → β → α) :
    ∀ (l : List β) (a : α), P a → (∀ x b, P x → P (f x b)) → P (l.foldl f a) := by
  intro l
  induction l with
  | nil => intro a ha _; exact ha
  | cons b rest ih =>
    intro a ha hstep
    rw [List.foldl_cons]
    exact ih (f a b) (hstep a b ha) hstep

theorem findPropertyMem : ∀ (doc : List Element) (k : Str) (p : Property),
    findProperty doc k = some p → Element.property p ∈ doc ∧ p.key = k := by
  intro doc
  induction doc with
  | nil => intro k p h; simp [findProperty] at h
  | cons e rest ih =>
    intro k p h
    cases e with
    | property p2 =>
      by_cases hk : p2.key = k
      · rw [findProperty, if_pos hk] at h
        obtain rfl := Option.some.inj h
        exact ⟨by simp, hk⟩
      · rw [findProperty, if_neg hk] at h
        obtain ⟨hm, hkey⟩ := ih k p h
        exact ⟨by simp [hm], hkey⟩
    | comment t =>
      simp only [findProperty] at h
      obtain ⟨hm, hkey⟩ := ih k p h
      exact ⟨by simp [hm], hkey⟩
    | emptyLine =>
      simp only [findProperty] at h
      obtain ⟨hm, hkey⟩ := ih k p h
      exact ⟨by simp [hm], hkey⟩
    | directive t =>
      simp only [findProperty] at h
      obtain ⟨hm, hkey⟩ := ih k p h
      exact ⟨by simp [hm], hkey⟩

theorem findPropertyNeNil (doc : List Element) (k : Str) (p : Property)
    (h : findProperty doc k = some p) : doc ≠ [] := by
  intro hnil
  rw [hnil] at h
  simp [findProperty] at h

/-- `it` is recorded under key `k` in the collected association list. -/
def pairMem (acc : List (Str × List Str)) (k it : Str) : Prop :=
  ∃ vs, (k, vs) ∈ acc ∧ it ∈ vs

theorem assocAppendSelf (l : List (Str × List Str)) (k v : Str) :
    pairMem (assocAppend l k v) k v := by
  induction l with
  | nil => exact ⟨[v], by simp [assocAppend], by simp⟩
  | cons kv rest ih =>
    obtain ⟨k2, vs⟩ := kv
    by_cases hk : k2 = k
    · subst hk
      exact ⟨vs ++ [v], by simp [assocAppend], by simp⟩
    · obtain ⟨vs2, hmem, hv⟩ := ih
      exact ⟨vs2, by simp [assocAppend, hk, hmem], hv⟩

theorem assocAppendMono (l : List (Str × List Str)) (k v k2 it : Str)
    (h : pairMem l k2 it) : pairMem (assocAppend l k v) k2 it := by
  induction l with
  | nil =>
    obtain ⟨vs, hm, _⟩ := h
    simp at hm
  | cons kv rest ih =>
    obtain ⟨ka, vsa⟩ := kv
    obtain ⟨vs, hm, hit⟩ := h
    rcases List.mem_cons.mp hm with heq | hm2
    · rw [Prod.mk.injEq] at heq
      obtain ⟨h1, h2⟩ := heq
      subst h1
      subst h2
      by_cases hk : k2 = k
      · subst hk
        exact ⟨vs ++ [v], by simp [assocAppend], by simp [hit]⟩
      · exact ⟨vs, by simp [assocAppend, hk], hit⟩
    · by_cases hk : ka = k
      · subst hk
        exact ⟨vs, by simp [assocAppend, hm2], hit⟩
      · obtain ⟨vs2, hmem2, hv2⟩ := ih ⟨vs, hm2, hit⟩
        exact ⟨vs2, by simp [assocAppend, hk, hmem2], hv2⟩

theorem assocAppendKeysEq (l : List (Str × List Str)) (k v : Str) :
    (assocAppend l k v).map Prod.fst =
      if k ∈ l.map Prod.fst then l.map Prod.fst else l.map Prod.fst ++ [k] := by
  induction l with
  | nil => simp [assocAppend]
  | cons kv rest ih =>
    obtain ⟨ka, vsa⟩ := kv
    by_cases hk : ka = k
    · subst hk
      simp [assocAppend]
    · have hne : ¬ k = ka := fun h => hk h.symm
      by_cases hmem : k ∈ rest.map Prod.fst
      · simp [assocAppend, hk, ih, hmem, hne]
      · simp [assocAppend, hk, ih, hmem, hne]

theorem assocAppendKeysSound (l : List (Str × List Str)) (k v k2 : Str)
    (h : k2 ∈ (assocAppend l k v).map Prod.fst) :
    k2 ∈ l.map Prod.fst ∨ k2 = k := by
  rw [assocAppendKeysEq] at h
  split at h
  · exact Or.inl h
  · rcases List.mem_append.mp h with h2 | h2
    · exact Or.inl h2
    · simp at h2
      exact Or.inr h2

theorem assocAppendKeysNodup (l : List (Str × List Str)) (k v : Str)
    (h : (l.map Prod.fst).Nodup) :
    ((assocAppend l k v).map Prod.fst).Nodup := by
  rw [assocAppendKeysEq]
  split
  · exact h
  · rename_i hmem
    rw [List.nodup_append]
    refine ⟨h, List.nodup_singleton k, ?_⟩
    intro a ha hak
    rw [List.mem_singleton] at hak
    subst hak
    exact hmem ha

theorem collectStepMono (base key : Str) (acc : List (Str × List Str))
    (x : Str) (k2 it : Str) (h : pairMem acc k2 it) :
    pairMem (collectStep base key acc x) k2 it := by
  unfold collectStep
  split
  · exact assocAppendMono acc key x k2 it h
  · exact h

theorem innerCollectMono (base key : Str) (itemsL : List Str)
    (acc : List (Str × List Str)) (k2 it : Str) (h : pairMem acc k2 it) :
    pairMem (itemsL.foldl (collectStep base key) acc) k2 it :=
  foldlInv (fun a => pairMem a k2 it) (collectStep base key) itemsL acc h
    (fun a b hb => collectStepMono base key a b k2 it hb)

theorem innerCollectSelf (base key : Str) : ∀ (itemsL : List Str)
    (acc : List (Str × List Str)) (it : Str), it ∈ itemsL →
    base.isPrefixOf it = true →
    pairMem (itemsL.foldl (collectStep base key) acc) key it := by
  intro itemsL
  induction itemsL with
  | nil => intro acc it h _; simp at h
  | cons x rest ih =>
    intro acc it h hpref
    rw [List.foldl_cons]
    rcases List.mem_cons.mp h with rfl | h2
    · apply innerCollectMono
      unfold collectStep
      rw [if_pos hpref]
      exact assocAppendSelf acc key it
    · exact ih _ it h2 hpref

theorem collectStepKeysSound (base key : Str) (acc : List (Str × List Str))
    (x : Str) (k2 : Str) (h : k2 ∈ (collectStep base key acc x).map Prod.fst) :
    k2 ∈ acc.map Prod.fst ∨ k2 = key := by
  unfold collectStep at h
  split at h
  · exact assocAppendKeysSound acc key x k2 h
  · exact Or.inl h

theorem innerCollectKeysSound (base key : Str) : ∀ (itemsL : List Str)
    (acc : List (Str × List Str)) (k2 : Str),
    k2 ∈ ((itemsL.foldl (collectStep base key) acc).map Prod.fst) →
    k2 ∈ acc.map Prod.fst ∨
      (k2 = key ∧ ∃ it ∈ itemsL, base.isPrefixOf it = true) := by
  intro itemsL
  induction itemsL with
  | nil => intro acc k2 h; exact Or.inl h
  | cons x rest ih =>
    intro acc k2 h
    rw [List.foldl_cons] at h
    rcases ih _ k2 h with h2 | ⟨rfl, it2, hit2, hp2⟩
    · by_cases hpref : base.isPrefixOf x = true
      · unfold collectStep at h2
        rw [if_pos hpref] at h2
        rcases assocAppendKeysSound acc key x k2 h2 with h3 | h3
        · exact Or.inl h3
        · exact Or.inr ⟨h3, x, by simp, hpref⟩
      · unfold collectStep at h2
        rw [if_neg hpref] at h2
        exact Or.inl h2
    · exact Or.inr ⟨rfl, it2, by simp [hit2], hp2⟩

theorem collectStepKeysNodup (base key : Str) (acc : List (Str × List Str))
    (x : Str) (h : (acc.map Prod.fst).Nodup) :
    ((collectStep base key acc x).map Prod.fst).Nodup := by
  unfold collectStep
  split
  · exact assocAppendKeysNodup acc key x h
  · exact h

theorem collectDocMono (base : Str) (doc : List Element)
    (acc : List (Str × List Str)) (k2 it : Str) (h : pairMem acc k2 it) :
    pairMem (doc.foldl (fun acc e =>
      match e with
      | .property p => p.allItems.foldl (collectStep base p.key) acc
      | _ => acc) acc) k2 it := by
  apply foldlInv (fun a => pairMem a k2 it) _ doc acc h
  intro a e he
  cases e with
  | property p => exact innerCollectMono base p.key p.allItems a k2 it he
  | comment t => exact he
  | emptyLine => exact he
  | directive t => exact he

theorem collectDocAdds (base : Str) : ∀ (doc : List Element)
    (acc : List (Str × List Str)) (p : Property) (it : Str),
    Element.property p ∈ doc → it ∈ p.allItems → base.isPrefixOf it = true →
    pairMem (doc.foldl (fun acc e =>
      match e with
      | .property p => p.allItems.foldl (collectStep base p.key) acc
      | _ => acc) acc) p.key it := by
  intro doc
  induction doc with
  | nil => intro acc p it h _ _; simp at h
  | cons e rest ih =>
    intro acc p it h hit hpref
    rw [List.foldl_cons]
    rcases List.mem_cons.mp h with heq | h2
    · obtain rfl : e = Element.property p := heq.symm
      apply collectDocMono
      exact innerCollectSelf base p.key p.allItems acc it hit hpref
    · exact ih _ p it h2 hit hpref

theorem collectDocKeysSound (base : Str) : ∀ (doc : List Element)
    (acc : List (Str × List Str)) (k2 : Str),
    k2 ∈ ((doc.foldl (fun acc e =>
      match e with
      | .property p => p.allItems.foldl (collectStep base p.key) acc
      | _ => acc) acc).map Prod.fst) →
    k2 ∈ acc.map Prod.fst ∨
      ∃ p : Property, Element.property p ∈ doc ∧ p.key = k2 ∧
        ∃ it ∈ p.allItems, base.isPrefixOf it = true := by
  intro doc
  induction doc with
  | nil => intro acc k2 h; exact Or.inl h
  | cons e rest ih =>
    intro acc k2 h
    rw [List.foldl_cons] at h
    rcases ih _ k2 h with h2 | ⟨p, hp, hkey, hit⟩
    · cases e with
      | property p =>
        rcases innerCollectKeysSound base p.key p.allItems acc k2 h2 with h3 | ⟨rfl, it2, hit2, hp2⟩
        · exact Or.inl h3
        · exact Or.inr ⟨p, by simp, rfl, it2, hit2, hp2⟩
      | comment t => exact Or.inl h2
      | emptyLine => exact Or.inl h2
      | directive t => exact Or.inl h2
    · exact Or.inr ⟨p, by simp [hp], hkey, hit⟩

theorem collectDocKeysNodup (base : Str) (doc : List Element)
    (acc : List (Str × List Str)) (h : (acc.map Prod.fst).Nodup) :
    ((doc.foldl (fun acc e =>
      match e with
      | .property p => p.allItems.foldl (collectStep base p.key) acc
      | _ => acc) acc).map Prod.fst).Nodup := by
  apply foldlInv (fun a => (a.map Prod.fst).Nodup) _ doc acc h
  intro a e he
  cases e with
  | property p =>
    exact foldlInv (fun a => (a.map Prod.fst).Nodup) _ p.allItems a he
      (fun a2 b2 hb => collectStepKeysNodup base p.key a2 b2 hb)
  | comment t => exact he
  | emptyLine => exact he
  | directive t => exact he

-- ### Claim C5: lemmas about the per-category template additions

theorem addItemAllItemsMono (p : Property) (item modId x : Str)
    (h : x ∈ p.allItems) : x ∈ (p.addItem item modId).allItems := by
  simp only [Property.addItem]
  split
  · exact h
  · show x ∈ p.allItems ++ [item]
    simp [h]

theorem addItemSelf (p : Property) (item modId : Str) :
    item ∈ (p.addItem item modId).allItems := by
  simp only [Property.addItem]
  split
  · assumption
  · show item ∈ p.allItems ++ [item]
    simp

theorem templateInnerStepKey (suffix : Str) (st : Property × Bool) (nib : Str) :
    (templateInnerStep suffix st nib).1.key = st.1.key := by
  unfold templateInnerStep
  split
  · rfl
  · exact addItemKey st.1 (nib ++ suffix) (modIdOf nib)

theorem templateInnerStepMono (suffix : Str) (st : Property × Bool) (nib x : Str)
    (h : x ∈ st.1.allItems) : x ∈ (templateInnerStep suffix st nib).1.allItems := by
  unfold templateInnerStep
  split
  · exact h
  · exact addItemAllItemsMono st.1 (nib ++ suffix) (modIdOf nib) x h

theorem templateInnerStepSelf (suffix : Str) (st : Property × Bool) (nib : Str) :
    nib ++ suffix ∈ (templateInnerStep suffix st nib).1.allItems := by
  unfold templateInnerStep
  split
  · assumption
  · exact addItemSelf st.1 (nib ++ suffix) (modIdOf nib)

theorem innerFoldTMono (suffix : Str) (items : List Str) (st : Property × Bool)
    (x : Str) (h : x ∈ st.1.allItems) :
    x ∈ (items.foldl (templateInnerStep suffix) st).1.allItems :=
  foldlInv (fun s => x ∈ s.1.allItems) (templateInnerStep suffix) items st h
    (fun s b hs => templateInnerStepMono suffix s b x hs)

theorem innerFoldTKey (suffix : Str) (items : List Str) (st : Property × Bool) :
    (items.foldl (templateInnerStep suffix) st).1.key = st.1.key := by
  have h := foldlInv (fun s => s.1.key = st.1.key) (templateInnerStep suffix) items st rfl
    (fun s b hs => by
      show (templateInnerStep suffix s b).1.key = st.1.key
      rw [templateInnerStepKey suffix s b]
      exact hs)
  exact h

theorem innerFoldTSelf (suffix : Str) : ∀ (items : List Str) (st : Property × Bool)
    (nib : Str), nib ∈ items →
    nib ++ suffix ∈ (items.foldl (templateInnerStep suffix) st).1.allItems := by
  intro items
  induction items with
  | nil => intro st nib h; simp at h
  | cons n0 rest ih =>
    intro st nib h
    rw [List.foldl_cons]
    rcases List.mem_cons.mp h with rfl | h2
    · exact innerFoldTMono suffix rest _ (nib ++ suffix)
        (templateInnerStepSelf suffix st nib)
    · exact ih _ nib h2

theorem templateAddOneKey (items : List Str) (base : Str) (pr : Property)
    (vars : List Str) : (templateAddOne items base pr vars).1.key = pr.key := by
  unfold templateAddOne
  have h := foldlInv (fun s => s.1.key = pr.key)
    (fun st v => items.foldl (templateInnerStep (replaceFirstDrop base v)) st) vars
    (pr, false) rfl
    (fun s v hs => by
      show (items.foldl (templateInnerStep (replaceFirstDrop base v)) s).1.key = pr.key
      rw [innerFoldTKey (replaceFirstDrop base v) items s]
      exact hs)
  exact h

theorem templateAddOneMono (items : List Str) (base : Str) (pr : Property)
    (vars : List Str) (x : Str) (h : x ∈ pr.allItems) :
    x ∈ (templateAddOne items base pr vars).1.allItems := by
  unfold templateAddOne
  exact foldlInv (fun s => x ∈ s.1.allItems)
    (fun st v => items.foldl (templateInnerStep (replaceFirstDrop base v)) st) vars
    (pr, false) h
    (fun s v hs => innerFoldTMono (replaceFirstDrop base v) items s x hs)

theorem templateAddOneAdds (items : List Str) (base : Str) (pr : Property) :
    ∀ (vars : List Str) (st : Property × Bool) (v nib : Str), v ∈ vars → nib ∈ items →
    nib ++ replaceFirstDrop base v ∈
      (vars.foldl (fun st v =>
        items.foldl (templateInnerStep (replaceFirstDrop base v)) st) st).1.allItems := by
  intro vars
  induction vars with
  | nil => intro st v nib h _; simp at h
  | cons v0 rest ih =>
    intro st v nib h hnib
    rw [List.foldl_cons]
    rcases List.mem_cons.mp h with rfl | h2
    · have hself := innerFoldTSelf (replaceFirstDrop base v) items st nib hnib
      exact foldlInv (fun s => nib ++ replaceFirstDrop base v ∈ s.1.allItems)
        (fun st v2 => items.foldl (templateInnerStep (replaceFirstDrop base v2)) st) rest
        _ hself
        (fun s v2 hs => innerFoldTMono (replaceFirstDrop base v2) items s _ hs)
    · exact ih _ v nib h2 hnib

theorem templateAddOneAddsTop (items : List Str) (base : Str) (pr : Property)
    (vars : List Str) (v nib : Str) (hv : v ∈ vars) (hnib : nib ∈ items) :
    nib ++ replaceFirstDrop base v ∈ (templateAddOne items base pr vars).1.allItems := by
  unfold templateAddOne
  exact templateAddOneAdds items base pr vars (pr, false) v nib hv hnib

theorem updFPDecomp : ∀ (pre post : List Element) (q : Property) (c : Str)
    (f : Property → Property), q.key = c →
    (∀ r : Property, Element.property r ∈ pre → r.key ≠ c) →
    updateFirstProp (pre ++ Element.property q :: post) c f =
      pre ++ Element.property (f q) :: post := by
  intro pre
  induction pre with
  | nil =>
    intro post q c f hq _
    simp [updateFirstProp, hq]
  | cons e pre2 ih =>
    intro post q c f hq hpre
    cases e with
    | property r =>
      have hr : r.key ≠ c := hpre r (by simp)
      simp only [List.cons_append, updateFirstProp, if_neg hr, List.append_eq]
      rw [ih post q c f hq (fun r2 h2 => hpre r2 (by simp [h2]))]
    | comment t =>
      simp only [List.cons_append, updateFirstProp, List.append_eq]
      rw [ih post q c f hq (fun r2 h2 => hpre r2 (by simp [h2]))]
    | emptyLine =>
      simp only [List.cons_append, updateFirstProp, List.append_eq]
      rw [ih post q c f hq (fun r2 h2 => hpre r2 (by simp [h2]))]
    | directive t =>
      simp only [List.cons_append, updateFirstProp, List.append_eq]
      rw [ih post q c f hq (fun r2 h2 => hpre r2 (by simp [h2]))]

-- ### Claim C5

/-- The concrete strings of the C5 claim. -/
def nsBase : Str := "ns:base".data

def nsBaseNorth : Str := "ns:base[facing=north]".data

def nsBaseSouth : Str := "ns:base[facing=south]".data

def otherBase : Str := "other:base".data

def otherNorth : Str := "other:base[facing=north]".data

def otherSouth : Str := "other:base[facing=south]".data

/-- Under the C5 hypotheses the collected variations form exactly one entry,
for category `c`, containing both blockstate variants. -/
theorem c5collected (doc : List Element) (c : Str) (tp : Property)
    (hfind : findProperty doc c = some tp)
    (hn : nsBaseNorth ∈ tp.allItems) (hs : nsBaseSouth ∈ tp.allItems)
    (honly : ∀ p : Property, Element.property p ∈ doc → p.key ≠ c →
      ∀ it ∈ p.allItems, nsBase.isPrefixOf it = false) :
    ∃ vs, collectVariations doc nsBase = [(c, vs)] ∧
      nsBaseNorth ∈ vs ∧ nsBaseSouth ∈ vs := by
  obtain ⟨htpmem, htpkey⟩ := findPropertyMem doc c tp hfind
  have hpmN : pairMem (collectVariations doc nsBase) c nsBaseNorth := by
    have h := collectDocAdds nsBase doc [] tp nsBaseNorth htpmem hn (by decide)
    rwa [htpkey] at h
  have hpmS : pairMem (collectVariations doc nsBase) c nsBaseSouth := by
    have h := collectDocAdds nsBase doc [] tp nsBaseSouth htpmem hs (by decide)
    rwa [htpkey] at h
  have hkeys : ∀ k2 ∈ (collectVariations doc nsBase).map Prod.fst, k2 = c := by
    intro k2 hk2
    rcases collectDocKeysSound nsBase doc [] k2 hk2 with h2 | ⟨p, hp, hkey, it, hit, hp2⟩
    · simp at h2
    · by_cases hc : p.key = c
      · rw [← hkey, hc]
      · have h3 := honly p hp hc it hit
        rw [hp2] at h3
        cases h3
  have hnodup : ((collectVariations doc nsBase).map Prod.fst).Nodup :=
    collectDocKeysNodup nsBase doc [] (by simp)
  obtain ⟨vs0, hvs0, hN⟩ := hpmN
  cases hcol : collectVariations doc nsBase with
  | nil =>
    rw [hcol] at hvs0
    simp at hvs0
  | cons kv rest =>
    cases rest with
    | nil =>
      obtain ⟨k1, vs1⟩ := kv
      have hk1 : k1 = c := hkeys k1 (by rw [hcol]; simp)
      subst hk1
      rw [hcol] at hvs0
      rcases List.mem_cons.mp hvs0 with heq | h2
      · rw [Prod.mk.injEq] at heq
        obtain ⟨-, h3⟩ := heq
        subst h3
        obtain ⟨vs2, hvs2, hS⟩ := hpmS
        rw [hcol] at hvs2
        rcases List.mem_cons.mp hvs2 with heq2 | h4
        · rw [Prod.mk.injEq] at heq2
          obtain ⟨-, h5⟩ := heq2
          subst h5
          exact ⟨_, rfl, hN, hS⟩
        · simp at h4
      · simp at h2
    | cons kv2 rest2 =>
      obtain ⟨k1, vs1⟩ := kv
      obtain ⟨k2, vs2⟩ := kv2
      have hk1 : k1 = c := hkeys k1 (by rw [hcol]; simp)
      have hk2 : k2 = c := hkeys k2 (by rw [hcol]; simp)
      rw [hcol] at hnodup
      simp [hk1, hk2] at hnodup

/-- C5: template propagation completeness.  For a document whose category `c`
contains `ns:base[facing=north]` and `ns:base[facing=south]` and where no
other category contains any `ns:base` variant, template-mode `addItems` with
template `ns:base` and new base `other:base` yields a document in which the
same category contains `other:base[facing=north]` and
`other:base[facing=south]`, and every other element of the document is
untouched (the element list differs only at the one Property of `c`). -/
theorem c5_template_propagation (m : Manager) (catArg c : Str) (tp : Property)
    (hfind : findProperty m.modifiedElements c = some tp)
    (hn : nsBaseNorth ∈ tp.allItems) (hs : nsBaseSouth ∈ tp.allItems)
    (honly : ∀ p : Property, Element.property p ∈ m.modifiedElements → p.key ≠ c →
      ∀ it ∈ p.allItems, nsBase.isPrefixOf it = false) :
    ∃ pre post p2,
      m.modifiedElements = pre ++ Element.property tp :: post ∧
      (addItemsToCategory m [otherBase] catArg (some nsBase)).2.modifiedElements =
        pre ++ Element.property p2 :: post ∧
      p2.key = c ∧
      otherNorth ∈ p2.allItems ∧ otherSouth ∈ p2.allItems ∧
      (∀ q : Property, Element.property q ∈ pre → q.key ≠ c) := by
  have hdoc : m.modifiedElements ≠ [] := findPropertyNeNil _ c tp hfind
  obtain ⟨vs, hcol, hNv, hSv⟩ := c5collected m.modifiedElements c tp hfind hn hs honly
  obtain ⟨htpmem, htpkey⟩ := findPropertyMem m.modifiedElements c tp hfind
  obtain ⟨pre, post, hd, hu, hpre⟩ :=
    updateFirstPropSpec m.modifiedElements c
      (fun _ => (templateAddOne [otherBase] nsBase tp vs).1) tp hfind
  have hkey1 : (templateAddOne [otherBase] nsBase tp vs).1.key = c := by
    rw [templateAddOneKey]
    exact htpkey
  have hN2 : otherNorth ∈ (templateAddOne [otherBase] nsBase tp vs).1.allItems := by
    have h := templateAddOneAddsTop [otherBase] nsBase tp vs nsBaseNorth otherBase
      hNv (by simp)
    have he : otherBase ++ replaceFirstDrop nsBase nsBaseNorth = otherNorth := by decide
    rwa [he] at h
  have hS2 : otherSouth ∈ (templateAddOne [otherBase] nsBase tp vs).1.allItems := by
    have h := templateAddOneAddsTop [otherBase] nsBase tp vs nsBaseSouth otherBase
      hSv (by simp)
    have he : otherBase ++ replaceFirstDrop nsBase nsBaseSouth = otherSouth := by decide
    rwa [he] at h
  have hroute : addItemsToCategory m [otherBase] catArg (some nsBase) =
      addItemsTemplate m [otherBase] nsBase := by
    have hne : nsBase.isEmpty = false := by decide
    simp [addItemsToCategory, hne]
  have hbase : List.intercalate [':'] ((pySplitChar ':' nsBase).take 2) = nsBase := by
    decide
  have hfold : ([(c, vs)].foldl (templateStep [otherBase] nsBase)
      (m.modifiedElements, false, ([] : List Str))) =
      (updateFirstProp m.modifiedElements c
        (fun _ => (templateAddOne [otherBase] nsBase tp vs).1),
       (templateAddOne [otherBase] nsBase tp vs).2,
       if (templateAddOne [otherBase] nsBase tp vs).2 then [c] else []) := by
    simp only [List.foldl_cons, List.foldl_nil, templateStep, hfind]
    by_cases hpb : (templateAddOne [otherBase] nsBase tp vs).2 = true
    · simp [hpb]
    · simp [hpb]
  have hres : (addItemsToCategory m [otherBase] catArg (some nsBase)).2.modifiedElements =
      applyRegen (updateFirstProp m.modifiedElements c
          (fun _ => (templateAddOne [otherBase] nsBase tp vs).1))
        (if (templateAddOne [otherBase] nsBase tp vs).2 then [c] else []) := by
    rw [hroute]
    simp only [addItemsTemplate, hbase, if_neg hdoc, saveModified, hcol, hfold]
  by_cases hpb : (templateAddOne [otherBase] nsBase tp vs).2 = true
  · refine ⟨pre, post, ((templateAddOne [otherBase] nsBase tp vs).1).regenerateRawValue,
      hd, ?_, ?_, ?_, ?_, hpre⟩
    · rw [hres, if_pos hpb, hu]
      simp only [applyRegen, List.foldl_cons, List.foldl_nil]
      exact updFPDecomp pre post _ c Property.regenerateRawValue hkey1 hpre
    · rw [regenKey]
      exact hkey1
    · rw [regenAllItems]
      exact hN2
    · rw [regenAllItems]
      exact hS2
  · refine ⟨pre, post, (templateAddOne [otherBase] nsBase tp vs).1,
      hd, ?_, hkey1, hN2, hS2, hpre⟩
    rw [hres, if_neg hpb]
    simp only [applyRegen, List.foldl_nil]
    exact hu

/-- A decidable sufficient condition for the C5 side hypothesis that no
other category contains a template-base variant. -/
theorem honlyOfAll (doc : List Element) (c : Str)
    (h : doc.all (fun e => match e with
      | Element.property p => decide (p.key = c) || p.allItems.all (fun it => !(nsBase.isPrefixOf it))
      | _ => true) = true) :
    ∀ p : Property, Element.property p ∈ doc → p.key ≠ c →
      ∀ it ∈ p.allItems, nsBase.isPrefixOf it = false := by
  intro p hp hkey it hit
  rw [List.all_eq_true] at h
  have h2 := h _ hp
  simp only at h2
  rcases Bool.or_eq_true_iff.mp h2 with h3 | h3
  · exact absurd (of_decide_eq_true h3) hkey
  · rw [List.all_eq_true] at h3
    have h4 := h3 it hit
    simpa using h4

/-- A loaded manager for the C5 witness. -/
def c5manager : Manager :=
  (loadFile ⟨[], [], [], [], []⟩ (parseLines
    ["block.8=ns:base[facing=north] ns:base[facing=south]".data,
     "".data, "block.9=minecraft:stone".data])).2

/-- The Property `findProperty` returns inside `c5manager`. -/
def c5target : Property :=
  mkProperty ("block.8".data)
    ("ns:base[facing=north] ns:base[facing=south]".data)
    (some ("ns:base[facing=north] ns:base[facing=south]".data))

theorem c5_template_propagation_witness :
    ∃ pre post p2,
      c5manager.modifiedElements = pre ++ Element.property c5target :: post ∧
      (addItemsToCategory c5manager [otherBase] ("".data)
          (some nsBase)).2.modifiedElements =
        pre ++ Element.property p2 :: post ∧
      p2.key = "block.8".data ∧
      otherNorth ∈ p2.allItems ∧ otherSouth ∈ p2.allItems ∧
      (∀ q : Property, Element.property q ∈ pre → q.key ≠ "block.8".data) :=
  c5_template_propagation c5manager ("".data) ("block.8".data) c5target
    (by decide) (by decide) (by decide)
    (honlyOfAll c5manager.modifiedElements ("block.8".data) (by decide))

-- ### Claim C7: ordering and maximum lemmas

theorem sugRelIff (a b : Str × ℚ) :
    sugRel a b = true ↔ b.2 < a.2 ∨ (a.2 = b.2 ∧ strLe a.1 b.1 = true) := by
  simp [sugRel]

theorem sugRelTrans (a b c : Str × ℚ) (h1 : sugRel a b = true)
    (h2 : sugRel b c = true) : sugRel a c = true := by
  rw [sugRelIff] at h1 h2 ⊢
  rcases h1 with h1 | ⟨h1e, h1s⟩
  · rcases h2 with h2 | ⟨h2e, h2s⟩
    · exact Or.inl (h2.trans h1)
    · exact Or.inl (h2e ▸ h1)
  · rcases h2 with h2 | ⟨h2e, h2s⟩
    · exact Or.inl (h1e ▸ h2)
    · exact Or.inr ⟨h1e.trans h2e, strLeTrans a.1 b.1 c.1 h1s h2s⟩

theorem sugRelTotal (a b : Str × ℚ) : (sugRel a b || sugRel b a) = true := by
  rw [Bool.or_eq_true, sugRelIff, sugRelIff]
  rcases lt_trichotomy a.2 b.2 with h | h | h
  · exact Or.inr (Or.inl h)
  · rcases strLeTotal a.1 b.1 with hs | hs
    · exact Or.inl (Or.inr ⟨h, hs⟩)
    · exact Or.inr (Or.inr ⟨h.symm, hs⟩)
  · exact Or.inl (Or.inl h)

theorem maxQMem : ∀ (l : List ℚ), l ≠ [] → maxQ l ∈ l := by
  intro l
  induction l with
  | nil => intro h; exact absurd rfl h
  | cons x rest ih =>
    intro _
    cases rest with
    | nil => simp [maxQ]
    | cons y t =>
      rw [show maxQ (x :: y :: t) = max x (maxQ (y :: t)) from rfl]
      rcases max_cases x (maxQ (y :: t)) with ⟨heq, -⟩ | ⟨heq, -⟩
      · rw [heq]; simp
      · rw [heq]
        exact List.mem_cons_of_mem x (ih (List.cons_ne_nil y t))

theorem maxQLe : ∀ (l : List ℚ) (x : ℚ), x ∈ l → x ≤ maxQ l := by
  intro l
  induction l with
  | nil => intro x h; simp at h
  | cons a rest ih =>
    intro x h
    cases rest with
    | nil =>
      rw [List.mem_singleton] at h
      subst h
      exact le_of_eq rfl
    | cons y t =>
      rw [show maxQ (a :: y :: t) = max a (maxQ (y :: t)) from rfl]
      rcases List.mem_cons.mp h with rfl | h2
      · exact le_max_left x (maxQ (y :: t))
      · exact le_trans (ih x h2) (le_max_right a (maxQ (y :: t)))

theorem assocLookupMem {β : Type} : ∀ (l : List (Str × β)) (k : Str) (v : β),
    assocLookup l k = some v → (k, v) ∈ l := by
  intro l
  induction l with
  | nil => intro k v h; simp [assocLookup] at h
  | cons kv rest ih =>
    intro k v h
    obtain ⟨k2, v2⟩ := kv
    by_cases hk : k2 = k
    · subst hk
      rw [assocLookup, if_pos rfl] at h
      obtain rfl := Option.some.inj h
      simp
    · rw [assocLookup, if_neg hk] at h
      exact List.mem_cons_of_mem _ (ih k v h)

theorem assocLookupNone {β : Type} : ∀ (l : List (Str × β)) (k : Str),
    (∀ kv ∈ l, kv.1 ≠ k) → assocLookup l k = none := by
  intro l
  induction l with
  | nil => intro k _; rfl
  | cons kv rest ih =>
    intro k h
    obtain ⟨k2, v2⟩ := kv
    have hne : k2 ≠ k := h (k2, v2) (by simp)
    rw [assocLookup, if_neg hne]
    exact ih k (fun kv2 h2 => h kv2 (by simp [h2]))

theorem assocLookupSomeOfMem {β : Type} : ∀ (l : List (Str × β)) (k : Str) (v : β),
    (k, v) ∈ l → ∃ v2, assocLookup l k = some v2 := by
  intro l
  induction l with
  | nil => intro k v h; simp at h
  | cons kv rest ih =>
    intro k v h
    obtain ⟨k2, v2⟩ := kv
    by_cases hk : k2 = k
    · exact ⟨v2, by rw [assocLookup, if_pos hk]⟩
    · rcases List.mem_cons.mp h with heq | h2
      · rw [Prod.mk.injEq] at heq
        exact absurd heq.1.symm hk
      · obtain ⟨v3, h3⟩ := ih k v h2
        exact ⟨v3, by rw [assocLookup, if_neg hk]; exact h3⟩

/-- The head of the merge-sorted suggestion list has score 1 whenever all
scores are at most 1 and some score is exactly 1. -/
theorem sortedHeadOne (l : List (Str × ℚ)) (hle : ∀ e ∈ l, e.2 ≤ 1)
    (hex : ∃ e ∈ l, e.2 = 1) :
    ∀ hd, (l.mergeSort sugRel).head? = some hd → hd.2 = 1 := by
  intro hd hhd
  have hperm := List.mergeSort_perm l sugRel
  have hsorted := List.sorted_mergeSort sugRelTrans sugRelTotal l
  obtain ⟨e1, he1, he1v⟩ := hex
  have he1m : e1 ∈ l.mergeSort sugRel := hperm.mem_iff.mpr he1
  cases hms : l.mergeSort sugRel with
  | nil => rw [hms] at he1m; simp at he1m
  | cons h t =>
    rw [hms] at hhd
    obtain rfl := (Option.some.inj hhd).symm
    have hhdmem : hd ∈ l := hperm.mem_iff.mp (by rw [hms]; simp)
    have hhdle : hd.2 ≤ 1 := hle hd hhdmem
    rw [hms] at he1m
    rcases List.mem_cons.mp he1m with rfl | h2
    · exact he1v
    · rw [hms] at hsorted
      have hrel := (List.pairwise_cons.mp hsorted).1 e1 h2
      rw [sugRelIff] at hrel
      rcases hrel with hlt | ⟨heq, -⟩
      · rw [he1v] at hlt
        exact le_antisymm hhdle (le_of_lt hlt)
      · rw [heq, he1v]

/-- When additionally every entry of a different key scores strictly below 1
and `(b, 1)` is an entry, the head of the merge-sorted list is `(b, 1)`. -/
theorem sortedHeadPick (l : List (Str × ℚ)) (b : Str) (hle : ∀ e ∈ l, e.2 ≤ 1)
    (hb : (b, (1 : ℚ)) ∈ l) (hlt : ∀ e ∈ l, e.1 ≠ b → e.2 < 1) :
    (l.mergeSort sugRel).head? = some (b, 1) := by
  have hperm := List.mergeSort_perm l sugRel
  have hsorted := List.sorted_mergeSort sugRelTrans sugRelTotal l
  have hbm : (b, (1 : ℚ)) ∈ l.mergeSort sugRel := hperm.mem_iff.mpr hb
  cases hms : l.mergeSort sugRel with
  | nil => rw [hms] at hbm; simp at hbm
  | cons h t =>
    have hone : h.2 = 1 := sortedHeadOne l hle ⟨(b, 1), hb, rfl⟩ h (by rw [hms]; rfl)
    have hhm : h ∈ l := hperm.mem_iff.mp (by rw [hms]; simp)
    have hkey : h.1 = b := by
      by_contra hne
      have := hlt h hhm hne
      rw [hone] at this
      exact lt_irrefl 1 this
    have : h = (b, 1) := by
      obtain ⟨h1, h2⟩ := h
      simp only at hone hkey
      rw [hone, hkey]
    rw [this]
    rfl

-- ### Claim C7: index-structure lemmas

theorem foldlInvMem {α β : Type} (P : α → Prop) (f : α → β → α) :
    ∀ (l : List β) (a : α), P a → (∀ x b, b ∈ l → P x → P (f x b)) →
      P (l.foldl f a) := by
  intro l
  induction l with
  | nil => intro a ha _; exact ha
  | cons b rest ih =>
    intro a ha hstep
    rw [List.foldl_cons]
    exact ih (f a b) (hstep a b (by simp) ha)
      (fun x b2 hb2 hx => hstep x b2 (List.mem_cons_of_mem b hb2) hx)

theorem ofNatRangeNeUnderscore : ∀ m : Nat, 97 ≤ m → m ≤ 122 →
    Char.ofNat m ≠ Char.ofNat 95 := by
  intro m h1 h2
  interval_cases m <;> decide

theorem toLowerNeUnderscore (c : Char) (h : c ≠ Char.ofNat 95) :
    c.toLower ≠ Char.ofNat 95 := by
  rw [Char.toLower]
  split
  · rename_i hcond
    exact ofNatRangeNeUnderscore (c.toNat + 32) (by omega) (by omega)
  · exact h

theorem findWordsChars : ∀ (n : Nat) (s : Str), s.length ≤ n →
    ∀ w ∈ findWords s, ∀ c ∈ w, c ∈ s := by
  intro n
  induction n with
  | zero =>
    intro s hs w hw c _
    rw [List.length_eq_zero.mp (Nat.le_zero.mp hs)] at hw
    simp [findWords] at hw
  | succ k ih =>
    intro s hs w hw c hc
    cases s with
    | nil => simp [findWords] at hw
    | cons x rest =>
      rw [findWords] at hw
      by_cases hx : isWordChar x = true
      · rw [if_pos hx] at hw
        rcases List.mem_cons.mp hw with rfl | hw2
        · rcases List.mem_cons.mp hc with rfl | hc2
          · simp
          · exact List.mem_cons_of_mem x ((List.takeWhile_sublist isWordChar).subset hc2)
        · have hlen : (rest.dropWhile isWordChar).length ≤ k :=
            le_trans (lengthDropWhileLe _ _)
              (by simpa using Nat.le_of_succ_le_succ hs)
          exact List.mem_cons_of_mem x
            ((List.dropWhile_sublist isWordChar).subset (ih _ hlen w hw2 c hc))
      · rw [if_neg hx] at hw
        have hlen : rest.length ≤ k := by simpa using Nat.le_of_succ_le_succ hs
        exact List.mem_cons_of_mem x (ih rest hlen w hw c hc)

theorem findWordsNeNil : ∀ (s : Str) (c : Char), c ∈ s → isWordChar c = true →
    findWords s ≠ [] := by
  intro s
  induction s with
  | nil => intro c hc _; simp at hc
  | cons x rest ih =>
    intro c hc hw
    rw [findWords]
    by_cases hx : isWordChar x = true
    · rw [if_pos hx]
      exact List.cons_ne_nil _ _
    · rw [if_neg hx]
      rcases List.mem_cons.mp hc with rfl | hc2
      · exact absurd hw hx
      · exact ih c hc2 hw

theorem dedupSubset (xs : List Str) : ∀ x ∈ dedup xs, x ∈ xs := by
  rw [dedup]
  apply foldlInvMem (fun acc => ∀ x ∈ acc, x ∈ xs)
  · intro x hx; simp at hx
  · intro acc b hb hacc x hx
    by_cases hmem : b ∈ acc
    · rw [if_pos hmem] at hx; exact hacc x hx
    · rw [if_neg hmem] at hx
      rcases List.mem_append.mp hx with h2 | h2
      · exact hacc x h2
      · rw [List.mem_singleton] at h2; exact h2 ▸ hb

theorem dedupNeNil (xs : List Str) (h : xs ≠ []) : dedup xs ≠ [] := by
  cases xs with
  | nil => exact absurd rfl h
  | cons x rest =>
    rw [dedup, List.foldl_cons]
    have hx : (if x ∈ ([] : List Str) then ([] : List Str) else [] ++ [x]) = [x] := by
      simp
    rw [hx]
    apply foldlInv (fun acc => acc ≠ [])
    · exact List.cons_ne_nil x []
    · intro acc b hacc
      by_cases hmem : b ∈ acc
      · rw [if_pos hmem]; exact hacc
      · rw [if_neg hmem]
        intro hcontra
        exact hacc (List.append_eq_nil.mp hcontra).1

theorem underscoreToSpaceNoUnderscore (s : Str) : Char.ofNat 95 ∉ underscoreToSpace s := by
  intro h
  rcases List.mem_map.mp h with ⟨c, -, hc⟩
  by_cases hcc : c = '_'
  · rw [if_pos hcc] at hc
    exact absurd hc (by decide)
  · rw [if_neg hcc] at hc
    exact hcc (hc.trans (by decide))

theorem lowerStrNoUnderscore (s : Str) (h : Char.ofNat 95 ∉ s) :
    Char.ofNat 95 ∉ lowerStr s := by
  intro h2
  rcases List.mem_map.mp h2 with ⟨c, hcs, hc⟩
  have hcne : c ≠ Char.ofNat 95 := fun he => h (he ▸ hcs)
  exact toLowerNeUnderscore c hcne hc

theorem memBeforeFirst (c ch : Char) (s : Str) (h : c ∈ beforeFirst ch s) : c ∈ s :=
  (List.takeWhile_sublist _).subset h

theorem memAfterLast (c ch : Char) (s : Str) (h : c ∈ afterLast ch s) : c ∈ s := by
  rw [afterLast] at h
  rw [List.mem_reverse] at h
  exact List.mem_reverse.mp ((List.takeWhile_sublist _).subset h)

theorem memStripToBase (c : Char) (it : Str) (h : c ∈ stripToBase it) : c ∈ it :=
  memAfterLast c ':' it (memBeforeFirst c '[' _ h)

theorem memIntercalateOfMem {α : Type} (sep : List α) :
    ∀ (xs : List (List α)) (x : List α) (c : α), x ∈ xs → c ∈ x →
      c ∈ List.intercalate sep xs := by
  intro xs
  induction xs with
  | nil => intro x c hx _; simp at hx
  | cons y rest ih =>
    intro x c hx hc
    cases rest with
    | nil =>
      rw [List.mem_singleton] at hx
      rw [intercalateSingleH]
      exact hx ▸ hc
    | cons z rest2 =>
      rw [intercalateConsH]
      rcases List.mem_cons.mp hx with rfl | hx2
      · exact List.mem_append.mpr (Or.inl (List.mem_append.mpr (Or.inl hc)))
      · exact List.mem_append.mpr (Or.inr (ih x c hx2 hc))

theorem idxAddNeNil (idx : List (Str × List Str)) (w k : Str) :
    idxAdd idx w k ≠ [] := by
  cases idx with
  | nil => simp [idxAdd]
  | cons e rest =>
    obtain ⟨w2, ks⟩ := e
    rw [idxAdd]
    split <;> exact List.cons_ne_nil _ _

theorem idxAddOK (w k : Str) (hw : Char.ofNat 95 ∉ w) :
    ∀ (idx : List (Str × List Str)),
      (∀ e ∈ idx, Char.ofNat 95 ∉ e.1 ∧ e.2.Nodup) →
      ∀ e ∈ idxAdd idx w k, Char.ofNat 95 ∉ e.1 ∧ e.2.Nodup := by
  intro idx
  induction idx with
  | nil =>
    intro _ e he
    rw [idxAdd] at he
    rw [List.mem_singleton] at he
    subst he
    exact ⟨hw, List.nodup_singleton k⟩
  | cons e0 rest ih =>
    intro hinv e he
    obtain ⟨w2, ks⟩ := e0
    rw [idxAdd] at he
    by_cases hww : w2 = w
    · rw [if_pos hww] at he
      rcases List.mem_cons.mp he with rfl | h2
      · refine ⟨(hinv (w2, ks) (by simp)).1, ?_⟩
        by_cases hk : k ∈ ks
        · rw [if_pos hk]; exact (hinv (w2, ks) (by simp)).2
        · rw [if_neg hk]
          exact List.Nodup.append (hinv (w2, ks) (by simp)).2
            (List.nodup_singleton k)
            (fun a ha hb => hk ((List.mem_singleton.mp hb) ▸ ha))
      · exact hinv e (List.mem_cons_of_mem _ h2)
    · rw [if_neg hww] at he
      rcases List.mem_cons.mp he with rfl | h2
      · exact hinv (w2, ks) (by simp)
      · exact ih (fun e2 he2 => hinv e2 (List.mem_cons_of_mem _ he2)) e h2

theorem propWordSetNoUnderscore (p : Property) (w : Str) (hw : w ∈ propWordSet p) :
    Char.ofNat 95 ∉ w := by
  intro h
  have h2 : w ∈ findWords (lowerStr (underscoreToSpace (joinSpace p.allItems))) :=
    dedupSubset _ w hw
  have h3 := findWordsChars _ _ le_rfl w h2 _ h
  exact lowerStrNoUnderscore _ (underscoreToSpaceNoUnderscore _) h3

theorem buildSuggestionIndexOK (doc : List Element) :
    ∀ e ∈ buildSuggestionIndex doc, Char.ofNat 95 ∉ e.1 ∧ e.2.Nodup := by
  rw [buildSuggestionIndex]
  refine foldlInv
    (fun idx : List (Str × List Str) => ∀ e ∈ idx, Char.ofNat 95 ∉ e.1 ∧ e.2.Nodup)
    _ doc [] (by intro e he; simp at he) ?_
  intro idx el hidx
  cases el with
  | property p =>
    show ∀ e ∈ (propWordSet p).foldl (fun ix w => idxAdd ix w p.key) idx, _
    refine foldlInvMem
      (fun ix : List (Str × List Str) => ∀ e ∈ ix, Char.ofNat 95 ∉ e.1 ∧ e.2.Nodup)
      _ (propWordSet p) idx hidx ?_
    intro ix w hwmem hix
    exact idxAddOK w p.key (propWordSetNoUnderscore p w hwmem) ix hix
  | comment c => exact hidx
  | emptyLine => exact hidx
  | directive c => exact hidx

theorem propWordSetNeNil (p : Property) (c : Char)
    (hc : c ∈ lowerStr (underscoreToSpace (joinSpace p.allItems)))
    (hw : isWordChar c = true) : propWordSet p ≠ [] :=
  dedupNeNil _ (findWordsNeNil _ c hc hw)

theorem buildSuggestionIndexNeNil (doc : List Element) (p : Property)
    (hp : Element.property p ∈ doc) (hpw : propWordSet p ≠ []) :
    buildSuggestionIndex doc ≠ [] := by
  obtain ⟨pre, post, rfl⟩ := List.append_of_mem hp
  rw [buildSuggestionIndex, List.foldl_append, List.foldl_cons]
  apply foldlInv (fun idx => idx ≠ [])
  · show (propWordSet p).foldl (fun ix w => idxAdd ix w p.key) _ ≠ []
    cases hws : propWordSet p with
    | nil => exact absurd hws hpw
    | cons w ws =>
      rw [List.foldl_cons]
      apply foldlInv (fun idx => idx ≠ [])
      · exact idxAddNeNil _ w p.key
      · intro x b hx
        exact idxAddNeNil x b p.key
  · intro idx el hidx
    cases el with
    | property q =>
      show (propWordSet q).foldl (fun ix w => idxAdd ix w q.key) idx ≠ []
      refine foldlInv (fun ix => ix ≠ []) _ (propWordSet q) idx hidx ?_
      intro x b hx
      exact idxAddNeNil x b q.key
    | comment c => exact hidx
    | emptyLine => exact hidx
    | directive c => exact hidx

-- ### Claim C7: the counterexample document

/-- Two single-item categories: `block.10` holds the only item whose base
name ends in the literal suffix `stairs`. -/
def c7doc : List Element := parseLines
  ["block.10=minecraft:superstairs".data, "block.5=minecraft:oak_door".data]

set_option maxRecDepth 8000 in
/-- C7 (counterexample): in `c7doc` only `block.10` contains an item whose
base name ends in `stairs` (`minecraft:superstairs`), and it is non-empty,
yet `suggest_categories_for_items_list(["oak_stairs"])` returns
`[("block.5", 1)]`, so `block.10` is not placed first (it does not appear
at all): the family bonus keys on the text after the last underscore of
the base name (`superstairs`), not on a literal `stairs` suffix. -/
theorem c7_suggestion_counterexample :
    suggestCategoriesForItemsList c7doc ["oak_stairs".data] =
      [("block.5".data, (1 : ℚ))]
    ∧ (suggestCategoriesForItemsList c7doc ["oak_stairs".data]).head? ≠
      some ("block.10".data, (1 : ℚ))
    ∧ c7doc.all (fun e =>
        match e with
        | Element.property p => p.allItems.all (fun it =>
            "stairs".data.isSuffixOf (stripToBase it) ==
              decide (p.key = "block.10".data))
        | _ => true) = true
    ∧ c7doc.any (fun e =>
        match e with
        | Element.property p =>
          decide (p.key = "block.10".data) && !p.allItems.isEmpty
        | _ => false) = true := by
  exact ⟨by with_unfolding_all rfl,
    of_decide_eq_true (by with_unfolding_all rfl), by decide, by decide⟩

-- ### Claim C7: family-index lemmas

theorem bumpCountNeNil (cm : List (Str × Nat)) (k : Str) : bumpCount cm k ≠ [] := by
  cases cm with
  | nil => simp [bumpCount]
  | cons e rest =>
    obtain ⟨k2, n⟩ := e
    rw [bumpCount]
    split <;> exact List.cons_ne_nil _ _

theorem famAddLookupSelf : ∀ (fam : List (Str × List (Str × Nat))) (fk k : Str),
    ∃ cm, assocLookup (famAdd fam fk k) fk = some cm ∧ cm ≠ [] := by
  intro fam
  induction fam with
  | nil =>
    intro fk k
    exact ⟨[(k, 1)], by rw [famAdd, assocLookup, if_pos rfl], List.cons_ne_nil _ _⟩
  | cons e rest ih =>
    intro fk k
    obtain ⟨f2, cm⟩ := e
    by_cases hf : f2 = fk
    · refine ⟨bumpCount cm k, ?_, bumpCountNeNil cm k⟩
      rw [famAdd, if_pos hf, assocLookup, if_pos hf]
    · obtain ⟨cm2, hcm2, hne⟩ := ih fk k
      refine ⟨cm2, ?_, hne⟩
      rw [famAdd, if_neg hf, assocLookup, if_neg hf]
      exact hcm2

theorem famAddLookupOther (fk k g : Str) (hg : g ≠ fk) :
    ∀ fam, assocLookup (famAdd fam fk k) g = assocLookup fam g := by
  intro fam
  induction fam with
  | nil =>
    simp only [famAdd, assocLookup]
    rw [if_neg (fun h => hg h.symm)]
  | cons e rest ih =>
    obtain ⟨f2, cm⟩ := e
    by_cases hf : f2 = fk
    · subst hf
      rw [famAdd, if_pos rfl, assocLookup, if_neg (fun h => hg h.symm),
        assocLookup, if_neg (fun h => hg h.symm)]
    · rw [famAdd, if_neg hf, assocLookup, assocLookup]
      by_cases hfg : f2 = g
      · rw [if_pos hfg, if_pos hfg]
      · rw [if_neg hfg, if_neg hfg]
        exact ih

theorem famItemStepLookupPres (key g : Str) (fm : List (Str × List (Str × Nat)))
    (it : Str) (h : ∃ cm, assocLookup fm g = some cm ∧ cm ≠ []) :
    ∃ cm, assocLookup (famItemStep key fm it) g = some cm ∧ cm ≠ [] := by
  rw [famItemStep]
  split
  · by_cases hg : g = afterLast '_' (stripToBase it)
    · subst hg
      exact famAddLookupSelf fm _ key
    · obtain ⟨cm, hcm, hne⟩ := h
      exact ⟨cm, by rw [famAddLookupOther _ key g hg]; exact hcm, hne⟩
  · exact h

theorem buildFamilyIndexLookup (doc : List Element) (p : Property) (it : Str)
    (hp : Element.property p ∈ doc) (hit : it ∈ p.allItems)
    (hok : famKeyOk (afterLast '_' (stripToBase it)) = true) :
    ∃ cm, assocLookup (buildFamilyIndex doc) (afterLast '_' (stripToBase it)) =
      some cm ∧ cm ≠ [] := by
  obtain ⟨pre, post, rfl⟩ := List.append_of_mem hp
  rw [buildFamilyIndex, List.foldl_append, List.foldl_cons]
  refine foldlInv
    (fun fm : List (Str × List (Str × Nat)) =>
      ∃ cm, assocLookup fm (afterLast '_' (stripToBase it)) = some cm ∧ cm ≠ [])
    _ post _ ?_ ?_
  · show ∃ cm, assocLookup (p.allItems.foldl (famItemStep p.key) _)
      (afterLast '_' (stripToBase it)) = some cm ∧ cm ≠ []
    obtain ⟨pre2, post2, hsplit⟩ := List.append_of_mem hit
    rw [hsplit, List.foldl_append, List.foldl_cons]
    refine foldlInv
      (fun fm : List (Str × List (Str × Nat)) =>
        ∃ cm, assocLookup fm (afterLast '_' (stripToBase it)) = some cm ∧ cm ≠ [])
      _ post2 _ ?_ ?_
    · show ∃ cm, assocLookup (famItemStep p.key _ it)
        (afterLast '_' (stripToBase it)) = some cm ∧ cm ≠ []
      rw [famItemStep, if_pos hok]
      exact famAddLookupSelf _ _ p.key
    · intro x b hx
      exact famItemStepLookupPres p.key _ x b hx
  · intro fm e hfm
    cases e with
    | property q =>
      show ∃ cm, assocLookup (q.allItems.foldl (famItemStep q.key) fm)
        (afterLast '_' (stripToBase it)) = some cm ∧ cm ≠ []
      refine foldlInv
        (fun fm2 : List (Str × List (Str × Nat)) =>
          ∃ cm, assocLookup fm2 (afterLast '_' (stripToBase it)) = some cm ∧ cm ≠ [])
        _ q.allItems fm hfm ?_
      intro x b hx
      exact famItemStepLookupPres q.key _ x b hx
    | comment c => exact hfm
    | emptyLine => exact hfm
    | directive c => exact hfm

theorem bumpCountPres (R : Str × Nat → Prop) (k : Str) (hnew : R (k, 1))
    (hbump : ∀ n, R (k, n) → R (k, n + 1)) :
    ∀ (cm : List (Str × Nat)), (∀ kn ∈ cm, R kn) → ∀ kn ∈ bumpCount cm k, R kn := by
  intro cm
  induction cm with
  | nil =>
    intro _ kn hkn
    rw [bumpCount, List.mem_singleton] at hkn
    exact hkn ▸ hnew
  | cons e rest ih =>
    intro h kn hkn
    obtain ⟨k2, n⟩ := e
    rw [bumpCount] at hkn
    by_cases hk : k2 = k
    · rw [if_pos hk] at hkn
      subst hk
      rcases List.mem_cons.mp hkn with rfl | h2
      · exact hbump n (h (k2, n) (by simp))
      · exact h kn (List.mem_cons_of_mem _ h2)
    · rw [if_neg hk] at hkn
      rcases List.mem_cons.mp hkn with rfl | h2
      · exact h (k2, n) (by simp)
      · exact ih (fun x hx => h x (List.mem_cons_of_mem _ hx)) kn h2

theorem famAddPres (S : Str → Str × Nat → Prop) (fk k : Str) (hnew : S fk (k, 1))
    (hbump : ∀ n, S fk (k, n) → S fk (k, n + 1)) :
    ∀ (fam : List (Str × List (Str × Nat))),
      (∀ fe ∈ fam, ∀ kn ∈ fe.2, S fe.1 kn) →
      ∀ fe ∈ famAdd fam fk k, ∀ kn ∈ fe.2, S fe.1 kn := by
  intro fam
  induction fam with
  | nil =>
    intro _ fe hfe kn hkn
    rw [famAdd, List.mem_singleton] at hfe
    subst hfe
    rw [List.mem_singleton] at hkn
    exact hkn ▸ hnew
  | cons e rest ih =>
    intro h fe hfe kn hkn
    obtain ⟨f2, cm⟩ := e
    rw [famAdd] at hfe
    by_cases hf : f2 = fk
    · rw [if_pos hf] at hfe
      subst hf
      rcases List.mem_cons.mp hfe with rfl | h2
      · exact bumpCountPres (S f2) k hnew hbump cm
          (fun x hx => h (f2, cm) (by simp) x hx) kn hkn
      · exact h fe (List.mem_cons_of_mem _ h2) kn hkn
    · rw [if_neg hf] at hfe
      rcases List.mem_cons.mp hfe with rfl | h2
      · exact h (f2, cm) (by simp) kn hkn
      · exact ih (fun x hx => h x (List.mem_cons_of_mem _ hx)) fe h2 kn hkn

theorem famSound (doc : List Element) :
    ∀ fe ∈ buildFamilyIndex doc, ∀ kn ∈ fe.2,
      1 ≤ kn.2 ∧ ∃ p, Element.property p ∈ doc ∧ kn.1 = p.key ∧
        ∃ it ∈ p.allItems, afterLast '_' (stripToBase it) = fe.1 := by
  rw [buildFamilyIndex]
  refine foldlInvMem
    (fun fam : List (Str × List (Str × Nat)) => ∀ fe ∈ fam, ∀ kn ∈ fe.2,
      1 ≤ kn.2 ∧ ∃ p, Element.property p ∈ doc ∧ kn.1 = p.key ∧
        ∃ it ∈ p.allItems, afterLast '_' (stripToBase it) = fe.1)
    _ doc [] (by intro fe hfe; simp at hfe) ?_
  intro fam e he hfam
  cases e with
  | property p =>
    show ∀ fe ∈ p.allItems.foldl (famItemStep p.key) fam, _
    refine foldlInvMem
      (fun fm : List (Str × List (Str × Nat)) => ∀ fe ∈ fm, ∀ kn ∈ fe.2,
        1 ≤ kn.2 ∧ ∃ q, Element.property q ∈ doc ∧ kn.1 = q.key ∧
          ∃ it2 ∈ q.allItems, afterLast '_' (stripToBase it2) = fe.1)
      _ p.allItems fam hfam ?_
    intro fm it hitmem hfm
    rw [famItemStep]
    split
    · exact famAddPres
        (fun fk kn => 1 ≤ kn.2 ∧ ∃ q, Element.property q ∈ doc ∧ kn.1 = q.key ∧
          ∃ it2 ∈ q.allItems, afterLast '_' (stripToBase it2) = fk)
        (afterLast '_' (stripToBase it)) p.key
        ⟨le_refl 1, p, he, rfl, it, hitmem, rfl⟩
        (fun n hn => ⟨by omega, hn.2⟩) fm hfm
    · exact hfm
  | comment c => exact hfam
  | emptyLine => exact hfam
  | directive c => exact hfam

-- ### Claim C7: score-accumulator lemmas

/-- `category_scores.get(c, 0)`. -/
def scoreOf (sc : List (Str × ℚ)) (c : Str) : ℚ := (assocLookup sc c).getD 0

theorem scoreBumpLookupSelf : ∀ (sc : List (Str × ℚ)) (c : Str) (w : ℚ),
    assocLookup (scoreBump sc c w) c = some (scoreOf sc c + w) := by
  intro sc
  induction sc with
  | nil =>
    intro c w
    rw [scoreBump, assocLookup, if_pos rfl, scoreOf]
    rw [show assocLookup ([] : List (Str × ℚ)) c = none from rfl]
    norm_num
  | cons e rest ih =>
    intro c w
    obtain ⟨c2, s0⟩ := e
    by_cases hc : c2 = c
    · rw [scoreBump, if_pos hc, assocLookup, if_pos hc, scoreOf, assocLookup,
        if_pos hc, Option.getD_some]
    · rw [scoreBump, if_neg hc, assocLookup, if_neg hc, ih, scoreOf, scoreOf,
        assocLookup, if_neg hc]

theorem scoreBumpLookupOther : ∀ (sc : List (Str × ℚ)) (c : Str) (w : ℚ) (c2 : Str),
    c2 ≠ c → assocLookup (scoreBump sc c w) c2 = assocLookup sc c2 := by
  intro sc
  induction sc with
  | nil =>
    intro c w c2 h
    simp only [scoreBump, assocLookup]
    rw [if_neg (fun he => h he.symm)]
  | cons e rest ih =>
    intro c w c2 h
    obtain ⟨c3, s0⟩ := e
    by_cases hc : c3 = c
    · subst hc
      rw [scoreBump, if_pos rfl, assocLookup, if_neg (fun he => h he.symm),
        assocLookup, if_neg (fun he => h he.symm)]
    · rw [scoreBump, if_neg hc, assocLookup, assocLookup]
      by_cases hc2 : c3 = c2
      · rw [if_pos hc2, if_pos hc2]
      · rw [if_neg hc2, if_neg hc2]
        exact ih c w c2 h

theorem scoreOfBumpSelf (sc : List (Str × ℚ)) (c : Str) (w : ℚ) :
    scoreOf (scoreBump sc c w) c = scoreOf sc c + w := by
  rw [scoreOf, scoreBumpLookupSelf, Option.getD_some]

theorem scoreOfBumpOther (sc : List (Str × ℚ)) (c : Str) (w : ℚ) (c2 : Str)
    (h : c2 ≠ c) : scoreOf (scoreBump sc c w) c2 = scoreOf sc c2 := by
  rw [scoreOf, scoreBumpLookupOther sc c w c2 h, scoreOf]

theorem scoreBumpPos : ∀ (sc : List (Str × ℚ)) (c : Str) (w : ℚ),
    (∀ e ∈ sc, 0 < e.2) → 0 < w → ∀ e ∈ scoreBump sc c w, 0 < e.2 := by
  intro sc
  induction sc with
  | nil =>
    intro c w _ hw e he
    rw [scoreBump, List.mem_singleton] at he
    subst he
    exact hw
  | cons e0 rest ih =>
    intro c w h hw e he
    obtain ⟨c2, s0⟩ := e0
    rw [scoreBump] at he
    by_cases hc : c2 = c
    · rw [if_pos hc] at he
      rcases List.mem_cons.mp he with rfl | h2
      · have hs0 := h (c2, s0) (by simp)
        simp only at hs0 ⊢
        linarith
      · exact h e (List.mem_cons_of_mem _ h2)
    · rw [if_neg hc] at he
      rcases List.mem_cons.mp he with rfl | h2
      · exact h (c2, s0) (by simp)
      · exact ih c w (fun x hx => h x (List.mem_cons_of_mem _ hx)) hw e h2

theorem scoreBumpKeysSub : ∀ (sc : List (Str × ℚ)) (c : Str) (w : ℚ) (k : Str),
    k ∈ (scoreBump sc c w).map Prod.fst → k ∈ sc.map Prod.fst ∨ k = c := by
  intro sc
  induction sc with
  | nil =>
    intro c w k h
    rw [scoreBump] at h
    simp at h
    exact Or.inr h
  | cons e rest ih =>
    intro c w k h
    obtain ⟨c2, s0⟩ := e
    rw [scoreBump] at h
    by_cases hc : c2 = c
    · rw [if_pos hc] at h
      rw [List.map_cons] at h
      rcases List.mem_cons.mp h with rfl | h2
      · exact Or.inl (by simp)
      · exact Or.inl (by simp [h2])
    · rw [if_neg hc] at h
      rw [List.map_cons] at h
      rcases List.mem_cons.mp h with rfl | h2
      · exact Or.inl (by simp)
      · rcases ih c w k h2 with h3 | h3
        · exact Or.inl (by simp [h3])
        · exact Or.inr h3

theorem scoreBumpKeysNodup : ∀ (sc : List (Str × ℚ)) (c : Str) (w : ℚ),
    (sc.map Prod.fst).Nodup → ((scoreBump sc c w).map Prod.fst).Nodup := by
  intro sc
  induction sc with
  | nil =>
    intro c w _
    rw [scoreBump]
    simp
  | cons e rest ih =>
    intro c w hnd
    obtain ⟨c2, s0⟩ := e
    rw [List.map_cons, List.nodup_cons] at hnd
    rw [scoreBump]
    by_cases hc : c2 = c
    · rw [if_pos hc, List.map_cons, List.nodup_cons]
      exact ⟨hnd.1, hnd.2⟩
    · rw [if_neg hc, List.map_cons, List.nodup_cons]
      refine ⟨?_, ih c w hnd.2⟩
      intro hk
      rcases scoreBumpKeysSub rest c w c2 hk with h2 | h2
      · exact hnd.1 h2
      · exact hc h2

theorem lookupOfMemNodup : ∀ (sc : List (Str × ℚ)) (k : Str) (v : ℚ),
    (sc.map Prod.fst).Nodup → (k, v) ∈ sc → assocLookup sc k = some v := by
  intro sc
  induction sc with
  | nil => intro k v _ h; simp at h
  | cons e rest ih =>
    intro k v hnd h
    obtain ⟨k2, v2⟩ := e
    rw [List.map_cons, List.nodup_cons] at hnd
    by_cases hk : k2 = k
    · subst hk
      rw [assocLookup, if_pos rfl]
      rcases List.mem_cons.mp h with heq | h2
      · rw [Prod.mk.injEq] at heq
        rw [heq.2]
      · exact absurd (List.mem_map.mpr ⟨(k2, v), h2, rfl⟩) hnd.1
    · rw [assocLookup, if_neg hk]
      rcases List.mem_cons.mp h with heq | h2
      · rw [Prod.mk.injEq] at heq
        exact absurd heq.1.symm hk
      · exact ih k v hnd.2 h2

theorem scoreOfNonneg (sc : List (Str × ℚ)) (c : Str) (h : ∀ e ∈ sc, 0 < e.2) :
    0 ≤ scoreOf sc c := by
  rw [scoreOf]
  cases hl : assocLookup sc c with
  | none => simp
  | some v =>
    have hv := h (c, v) (assocLookupMem sc c v hl)
    simp only at hv
    rw [Option.getD_some]
    linarith

theorem catsFoldScore : ∀ (cats : List Str), cats.Nodup →
    ∀ (sc : List (Str × ℚ)) (w : ℚ) (c : Str),
      scoreOf (cats.foldl (fun s c2 => scoreBump s c2 w) sc) c =
        scoreOf sc c + (if c ∈ cats then w else 0) := by
  intro cats
  induction cats with
  | nil => intro _ sc w c; simp
  | cons cat rest ih =>
    intro hnd sc w c
    rw [List.nodup_cons] at hnd
    rw [List.foldl_cons, ih hnd.2]
    by_cases hc : c = cat
    · subst hc
      rw [scoreOfBumpSelf, if_neg (fun h2 => hnd.1 h2),
        if_pos (List.mem_cons_self c rest)]
      ring
    · rw [scoreOfBumpOther sc cat w c hc]
      have hiff : (c ∈ cat :: rest) ↔ c ∈ rest := by simp [hc]
      rw [if_congr hiff rfl rfl]

theorem scoreKeywordPassNone (idx : List (Str × List Str)) (sc : List (Str × ℚ))
    (kw : Str) (w : ℚ) (h : assocLookup idx kw = none) :
    scoreKeywordPass idx sc kw w = sc := by
  rw [scoreKeywordPass, h]

theorem scoreKeywordPassSome (idx : List (Str × List Str)) (sc : List (Str × ℚ))
    (kw : Str) (w : ℚ) (cats : List Str) (h : assocLookup idx kw = some cats) :
    scoreKeywordPass idx sc kw w = cats.foldl (fun s c => scoreBump s c w) sc := by
  rw [scoreKeywordPass, h]

theorem scoreKeywordPassScoreLe (idx : List (Str × List Str))
    (hidx : ∀ e ∈ idx, e.2.Nodup) (sc : List (Str × ℚ)) (kw : Str) (w : ℚ)
    (hw : 0 ≤ w) (c : Str) :
    scoreOf (scoreKeywordPass idx sc kw w) c ≤ scoreOf sc c + w := by
  cases hl : assocLookup idx kw with
  | none =>
    rw [scoreKeywordPassNone idx sc kw w hl]
    linarith
  | some cats =>
    rw [scoreKeywordPassSome idx sc kw w cats hl]
    have hnd : cats.Nodup := hidx (kw, cats) (assocLookupMem idx kw cats hl)
    rw [catsFoldScore cats hnd sc w c]
    split <;> linarith

theorem scoreKeywordPassPos (idx : List (Str × List Str)) (sc : List (Str × ℚ))
    (kw : Str) (w : ℚ) (hw : 0 < w) (h : ∀ e ∈ sc, 0 < e.2) :
    ∀ e ∈ scoreKeywordPass idx sc kw w, 0 < e.2 := by
  cases hl : assocLookup idx kw with
  | none =>
    rw [scoreKeywordPassNone idx sc kw w hl]
    exact h
  | some cats =>
    rw [scoreKeywordPassSome idx sc kw w cats hl]
    refine foldlInv (fun s : List (Str × ℚ) => ∀ e ∈ s, 0 < e.2) _ cats sc h ?_
    intro x b hx
    exact scoreBumpPos x b w hx hw

theorem scoreKeywordPassKeysNodup (idx : List (Str × List Str))
    (sc : List (Str × ℚ)) (kw : Str) (w : ℚ)
    (h : (sc.map Prod.fst).Nodup) :
    ((scoreKeywordPass idx sc kw w).map Prod.fst).Nodup := by
  cases hl : assocLookup idx kw with
  | none =>
    rw [scoreKeywordPassNone idx sc kw w hl]
    exact h
  | some cats =>
    rw [scoreKeywordPassSome idx sc kw w cats hl]
    refine foldlInv (fun s : List (Str × ℚ) => (s.map Prod.fst).Nodup) _ cats sc h ?_
    intro x b hx
    exact scoreBumpKeysNodup x b w hx

theorem famFoldOther : ∀ (cm : List (Str × Nat)) (b : Str), (∀ q ∈ cm, q.1 = b) →
    ∀ (sc : List (Str × ℚ)) (c : Str), c ≠ b →
      assocLookup (cm.foldl (fun s q => scoreBump s q.1 ((q.2 : ℚ) * 5)) sc) c =
        assocLookup sc c := by
  intro cm
  induction cm with
  | nil => intro b _ sc c _; rfl
  | cons q rest ih =>
    intro b hall sc c hc
    rw [List.foldl_cons, ih b (fun x hx => hall x (List.mem_cons_of_mem _ hx)) _ c hc]
    exact scoreBumpLookupOther sc q.1 _ c (fun he => hc (he.trans (hall q (by simp))))

theorem famFoldMono : ∀ (cm : List (Str × Nat)) (sc : List (Str × ℚ)) (b : Str),
    scoreOf sc b ≤ scoreOf (cm.foldl (fun s q => scoreBump s q.1 ((q.2 : ℚ) * 5)) sc) b := by
  intro cm
  induction cm with
  | nil => intro sc b; exact le_refl _
  | cons q rest ih =>
    intro sc b
    rw [List.foldl_cons]
    refine le_trans ?_ (ih _ b)
    by_cases hq : q.1 = b
    · rw [hq, scoreOfBumpSelf]
      have : (0 : ℚ) ≤ (q.2 : ℚ) * 5 := by positivity
      linarith
    · rw [scoreOfBumpOther sc q.1 _ b (fun he => hq he.symm)]

theorem famFoldSelfGe (cm : List (Str × Nat)) (b : Str) (hne : cm ≠ [])
    (hall : ∀ q ∈ cm, q.1 = b ∧ 1 ≤ q.2) (sc : List (Str × ℚ)) :
    scoreOf sc b + 5 ≤
      scoreOf (cm.foldl (fun s q => scoreBump s q.1 ((q.2 : ℚ) * 5)) sc) b := by
  cases cm with
  | nil => exact absurd rfl hne
  | cons q rest =>
    rw [List.foldl_cons]
    refine le_trans ?_ (famFoldMono rest _ b)
    obtain ⟨hqb, hq1⟩ := hall q (by simp)
    rw [hqb, scoreOfBumpSelf]
    have h1 : (1 : ℚ) ≤ (q.2 : ℚ) := by exact_mod_cast hq1
    nlinarith

theorem famFoldLookupSome (cm : List (Str × Nat)) (b : Str) (hne : cm ≠ [])
    (hall : ∀ q ∈ cm, q.1 = b) (sc : List (Str × ℚ)) :
    ∃ v, assocLookup (cm.foldl (fun s q => scoreBump s q.1 ((q.2 : ℚ) * 5)) sc) b =
      some v := by
  cases cm with
  | nil => exact absurd rfl hne
  | cons q rest =>
    rw [List.foldl_cons]
    refine foldlInv (fun s : List (Str × ℚ) => ∃ v, assocLookup s b = some v)
      _ rest _ ?_ ?_
    · rw [hall q (by simp)]
      exact ⟨_, scoreBumpLookupSelf sc b _⟩
    · intro x q2 hx
      by_cases hqb : q2.1 = b
      · rw [hqb]
        exact ⟨_, scoreBumpLookupSelf x b _⟩
      · obtain ⟨v, hv⟩ := hx
        refine ⟨v, ?_⟩
        rw [scoreBumpLookupOther x q2.1 _ b (fun he => hqb he.symm)]
        exact hv

theorem famFoldPos (cm : List (Str × Nat)) (hcm : ∀ q ∈ cm, 1 ≤ q.2)
    (sc : List (Str × ℚ)) (h : ∀ e ∈ sc, 0 < e.2) :
    ∀ e ∈ cm.foldl (fun s q => scoreBump s q.1 ((q.2 : ℚ) * 5)) sc, 0 < e.2 := by
  refine foldlInvMem (fun s : List (Str × ℚ) => ∀ e ∈ s, 0 < e.2) _ cm sc h ?_
  intro x q hq hx
  refine scoreBumpPos x q.1 _ hx ?_
  have h1 : (1 : ℚ) ≤ (q.2 : ℚ) := by exact_mod_cast hcm q hq
  nlinarith

theorem famFoldKeysNodup (cm : List (Str × Nat)) (sc : List (Str × ℚ))
    (h : (sc.map Prod.fst).Nodup) :
    ((cm.foldl (fun s q => scoreBump s q.1 ((q.2 : ℚ) * 5)) sc).map Prod.fst).Nodup := by
  refine foldlInv (fun s : List (Str × ℚ) => (s.map Prod.fst).Nodup) _ cm sc h ?_
  intro x q hx
  exact scoreBumpKeysNodup x q.1 _ hx

-- ### Claim C7: the general scoring pipeline

theorem scoreOneItemPos (idx : List (Str × List Str))
    (fam : List (Str × List (Str × Nat)))
    (hfam : ∀ fe ∈ fam, ∀ kn ∈ fe.2, 1 ≤ kn.2)
    (sc : List (Str × ℚ)) (itemName : Str) (h : ∀ e ∈ sc, 0 < e.2) :
    ∀ e ∈ scoreOneItem idx fam sc itemName, 0 < e.2 := by
  have hsc1 : ∀ e ∈ (keywordsOf (stripToBase itemName)).foldl
      (fun s kw => scoreKeywordPass idx s kw
        (if kw = stripToBase itemName then 5 else 1)) sc, 0 < e.2 := by
    refine foldlInv (fun s : List (Str × ℚ) => ∀ e ∈ s, 0 < e.2) _ _ sc h ?_
    intro x kw hx
    refine scoreKeywordPassPos idx x kw _ ?_ hx
    split <;> norm_num
  simp only [scoreOneItem]
  split
  · split
    · rename_i cm heq
      refine famFoldPos cm ?_ _ hsc1
      intro q hq
      exact hfam (afterLast '_' (stripToBase itemName), cm)
        (assocLookupMem fam _ cm heq) q hq
    · exact hsc1
  · exact hsc1

theorem scoresPos (idx : List (Str × List Str))
    (fam : List (Str × List (Str × Nat)))
    (hfam : ∀ fe ∈ fam, ∀ kn ∈ fe.2, 1 ≤ kn.2) (itemNames : List Str) :
    ∀ e ∈ itemNames.foldl (scoreOneItem idx fam) [], 0 < e.2 := by
  refine foldlInv (fun s : List (Str × ℚ) => ∀ e ∈ s, 0 < e.2) _ itemNames []
    (by intro e he; simp at he) ?_
  intro x b hx
  exact scoreOneItemPos idx fam hfam x b hx

theorem suggestEmptyCase (doc : List Element) (itemNames : List Str)
    (h : itemNames = [] ∨ buildSuggestionIndex doc = []) :
    suggestCategoriesForItemsList doc itemNames = [] := by
  simp only [suggestCategoriesForItemsList]
  rw [if_pos h]

theorem suggestEqOfNe (doc : List Element) (itemNames : List Str)
    (h : ¬(itemNames = [] ∨ buildSuggestionIndex doc = [])) :
    suggestCategoriesForItemsList doc itemNames =
      ((itemNames.foldl
          (scoreOneItem (buildSuggestionIndex doc) (buildFamilyIndex doc)) []).map
        (fun p => (p.1,
          if maxQ ((itemNames.foldl
              (scoreOneItem (buildSuggestionIndex doc) (buildFamilyIndex doc))
              []).map Prod.snd) > 0
          then p.2 / maxQ ((itemNames.foldl
              (scoreOneItem (buildSuggestionIndex doc) (buildFamilyIndex doc))
              []).map Prod.snd)
          else 0))).mergeSort sugRel := by
  simp only [suggestCategoriesForItemsList]
  rw [if_neg h]

theorem suggestSorted (doc : List Element) (itemNames : List Str) :
    List.Pairwise (fun a b => sugRel a b = true)
      (suggestCategoriesForItemsList doc itemNames) := by
  by_cases h : itemNames = [] ∨ buildSuggestionIndex doc = []
  · rw [suggestEmptyCase doc itemNames h]
    exact List.Pairwise.nil
  · rw [suggestEqOfNe doc itemNames h]
    exact List.sorted_mergeSort sugRelTrans sugRelTotal _

theorem suggestHeadOne (doc : List Element) (itemNames : List Str) :
    ∀ hd, (suggestCategoriesForItemsList doc itemNames).head? = some hd →
      hd.2 = 1 := by
  intro hd hhd
  by_cases h : itemNames = [] ∨ buildSuggestionIndex doc = []
  · rw [suggestEmptyCase doc itemNames h] at hhd
    exact absurd hhd (by simp)
  · rw [suggestEqOfNe doc itemNames h] at hhd
    cases hsc : itemNames.foldl
        (scoreOneItem (buildSuggestionIndex doc) (buildFamilyIndex doc)) [] with
    | nil =>
      rw [hsc] at hhd
      simp [List.mergeSort_nil] at hhd
    | cons e0 rest =>
      have hpos : ∀ e ∈ itemNames.foldl
          (scoreOneItem (buildSuggestionIndex doc) (buildFamilyIndex doc)) [],
          0 < e.2 :=
        scoresPos _ _ (fun fe hfe kn hkn => (famSound doc fe hfe kn hkn).1) itemNames
      have hmapne : (itemNames.foldl
          (scoreOneItem (buildSuggestionIndex doc) (buildFamilyIndex doc))
          []).map Prod.snd ≠ [] := by
        rw [hsc]; simp
      obtain ⟨m, hm, hmv⟩ := List.mem_map.mp (maxQMem _ hmapne)
      have hMpos : 0 < maxQ ((itemNames.foldl
          (scoreOneItem (buildSuggestionIndex doc) (buildFamilyIndex doc))
          []).map Prod.snd) := by
        rw [← hmv]
        exact hpos m hm
      refine sortedHeadOne _ ?_ ?_ hd hhd
      · intro e he
        obtain ⟨p0, hp0, rfl⟩ := List.mem_map.mp he
        rw [if_pos hMpos]
        exact (div_le_one hMpos).mpr (maxQLe _ _ (List.mem_map.mpr ⟨p0, hp0, rfl⟩))
      · refine ⟨_, List.mem_map.mpr ⟨m, hm, rfl⟩, ?_⟩
        rw [if_pos hMpos, hmv, div_self (ne_of_gt hMpos)]

-- ### Claim C7: the amended instance

theorem headPickOfScores (cm : List (Str × Nat)) (b : Str) (hne : cm ≠ [])
    (hall : ∀ q ∈ cm, q.1 = b ∧ 1 ≤ q.2) (sc1 : List (Str × ℚ))
    (hb1 : ∀ c, scoreOf sc1 c ≤ 2) (hpos1 : ∀ e ∈ sc1, 0 < e.2)
    (hnd1 : (sc1.map Prod.fst).Nodup) :
    (((cm.foldl (fun s q => scoreBump s q.1 ((q.2 : ℚ) * 5)) sc1).map
        (fun p => (p.1,
          if maxQ ((cm.foldl (fun s q => scoreBump s q.1 ((q.2 : ℚ) * 5))
              sc1).map Prod.snd) > 0
          then p.2 / maxQ ((cm.foldl (fun s q => scoreBump s q.1 ((q.2 : ℚ) * 5))
              sc1).map Prod.snd)
          else 0))).mergeSort sugRel).head? = some (b, 1) := by
  have hPos : ∀ e ∈ cm.foldl (fun s q => scoreBump s q.1 ((q.2 : ℚ) * 5)) sc1,
      0 < e.2 :=
    famFoldPos cm (fun q hq => (hall q hq).2) sc1 hpos1
  have hNodup : ((cm.foldl (fun s q => scoreBump s q.1 ((q.2 : ℚ) * 5))
      sc1).map Prod.fst).Nodup :=
    famFoldKeysNodup cm sc1 hnd1
  have hSelf : 5 ≤ scoreOf (cm.foldl (fun s q => scoreBump s q.1 ((q.2 : ℚ) * 5))
      sc1) b := by
    have h0 := scoreOfNonneg sc1 b hpos1
    have h5 := famFoldSelfGe cm b hne hall sc1
    linarith
  obtain ⟨v, hv⟩ :=
    famFoldLookupSome cm b hne (fun q hq => (hall q hq).1) sc1
  have hOtherLe : ∀ c, c ≠ b →
      scoreOf (cm.foldl (fun s q => scoreBump s q.1 ((q.2 : ℚ) * 5)) sc1) c ≤ 2 := by
    intro c hc
    rw [scoreOf, famFoldOther cm b (fun q hq => (hall q hq).1) sc1 c hc]
    exact hb1 c
  have hvmem : (b, v) ∈ cm.foldl (fun s q => scoreBump s q.1 ((q.2 : ℚ) * 5)) sc1 :=
    assocLookupMem _ b v hv
  have hvof : scoreOf (cm.foldl (fun s q => scoreBump s q.1 ((q.2 : ℚ) * 5)) sc1) b
      = v := by
    rw [scoreOf, hv, Option.getD_some]
  have hv5 : 5 ≤ v := hvof ▸ hSelf
  have hmapne : (cm.foldl (fun s q => scoreBump s q.1 ((q.2 : ℚ) * 5))
      sc1).map Prod.snd ≠ [] := by
    intro hnil
    have hm2 : (b, v).2 ∈ (cm.foldl (fun s q => scoreBump s q.1 ((q.2 : ℚ) * 5))
        sc1).map Prod.snd :=
      List.mem_map.mpr ⟨(b, v), hvmem, rfl⟩
    rw [hnil] at hm2
    simp at hm2
  have hvle : v ≤ maxQ ((cm.foldl (fun s q => scoreBump s q.1 ((q.2 : ℚ) * 5))
      sc1).map Prod.snd) :=
    maxQLe _ _ (List.mem_map.mpr ⟨(b, v), hvmem, rfl⟩)
  have hmle : maxQ ((cm.foldl (fun s q => scoreBump s q.1 ((q.2 : ℚ) * 5))
      sc1).map Prod.snd) ≤ v := by
    obtain ⟨e1, he1, he1v⟩ := List.mem_map.mp (maxQMem _ hmapne)
    by_cases hk : e1.1 = b
    · have hl1 : assocLookup (cm.foldl (fun s q => scoreBump s q.1 ((q.2 : ℚ) * 5))
          sc1) e1.1 = some e1.2 :=
        lookupOfMemNodup _ e1.1 e1.2 hNodup he1
      rw [hk] at hl1
      rw [← he1v]
      exact le_of_eq (Option.some.inj (hl1.symm.trans hv))
    · have hl1 : assocLookup (cm.foldl (fun s q => scoreBump s q.1 ((q.2 : ℚ) * 5))
          sc1) e1.1 = some e1.2 :=
        lookupOfMemNodup _ e1.1 e1.2 hNodup he1
      have h2 := hOtherLe e1.1 hk
      rw [scoreOf, hl1, Option.getD_some] at h2
      rw [← he1v]
      linarith
  have hM : maxQ ((cm.foldl (fun s q => scoreBump s q.1 ((q.2 : ℚ) * 5))
      sc1).map Prod.snd) = v := le_antisymm hmle hvle
  have hMpos : 0 < maxQ ((cm.foldl (fun s q => scoreBump s q.1 ((q.2 : ℚ) * 5))
      sc1).map Prod.snd) := by
    rw [hM]
    linarith
  refine sortedHeadPick _ b ?_ ?_ ?_
  · intro e he
    obtain ⟨p0, hp0, rfl⟩ := List.mem_map.mp he
    rw [if_pos hMpos]
    exact (div_le_one hMpos).mpr (maxQLe _ _ (List.mem_map.mpr ⟨p0, hp0, rfl⟩))
  · refine List.mem_map.mpr ⟨(b, v), hvmem, ?_⟩
    rw [if_pos hMpos, hM, div_self (by linarith : v ≠ 0)]
  · intro e he hkey
    obtain ⟨p0, hp0, rfl⟩ := List.mem_map.mp he
    rw [if_pos hMpos]
    have hl0 : assocLookup (cm.foldl (fun s q => scoreBump s q.1 ((q.2 : ℚ) * 5))
        sc1) p0.1 = some p0.2 :=
      lookupOfMemNodup _ p0.1 p0.2 hNodup hp0
    have h2 : scoreOf (cm.foldl (fun s q => scoreBump s q.1 ((q.2 : ℚ) * 5))
        sc1) p0.1 ≤ 2 := hOtherLe p0.1 hkey
    rw [scoreOf, hl0, Option.getD_some] at h2
    rw [div_lt_one hMpos, hM]
    linarith

theorem suggestInstanceHead (doc : List Element)
    (hex : ∃ p, Element.property p ∈ doc ∧ p.key = "block.10".data ∧
      ∃ it ∈ p.allItems, afterLast '_' (stripToBase it) = "stairs".data)
    (honly : ∀ p, Element.property p ∈ doc → ∀ it ∈ p.allItems,
      afterLast '_' (stripToBase it) = "stairs".data →
      p.key = "block.10".data) :
    (suggestCategoriesForItemsList doc ["oak_stairs".data]).head? =
      some ("block.10".data, 1) := by
  obtain ⟨p, hp, hpkey, it, hit, hitfam⟩ := hex
  have hsit : 's' ∈ it := by
    refine memStripToBase 's' it (memAfterLast 's' '_' _ ?_)
    rw [hitfam]
    decide
  have hsjoin : 's' ∈ joinSpace p.allItems :=
    memIntercalateOfMem [' '] p.allItems it 's' hit hsit
  have hsu2s : 's' ∈ underscoreToSpace (joinSpace p.allItems) :=
    List.mem_map.mpr ⟨'s', hsjoin, by decide⟩
  have hslower : 's' ∈ lowerStr (underscoreToSpace (joinSpace p.allItems)) :=
    List.mem_map.mpr ⟨'s', hsu2s, by decide⟩
  have hidxne : buildSuggestionIndex doc ≠ [] :=
    buildSuggestionIndexNeNil doc p hp (propWordSetNeNil p 's' hslower (by decide))
  have hfamOk : famKeyOk (afterLast '_' (stripToBase it)) = true := by
    rw [hitfam]
    decide
  obtain ⟨cm, hcm0, hcmne⟩ := buildFamilyIndexLookup doc p it hp hit hfamOk
  rw [hitfam] at hcm0
  have hcmall : ∀ q ∈ cm, q.1 = "block.10".data ∧ 1 ≤ q.2 := by
    intro q hq
    have hmem : ("stairs".data, cm) ∈ buildFamilyIndex doc :=
      assocLookupMem (buildFamilyIndex doc) ("stairs".data) cm hcm0
    obtain ⟨h1, p2, hp2, hkey2, it2, hit2, hfam2⟩ :=
      famSound doc ("stairs".data, cm) hmem q hq
    exact ⟨hkey2.trans (honly p2 hp2 it2 hit2 hfam2), h1⟩
  have hidxOK := buildSuggestionIndexOK doc
  have hndidx : ∀ e ∈ buildSuggestionIndex doc, e.2.Nodup :=
    fun e he => (hidxOK e he).2
  have hlookupOS : assocLookup (buildSuggestionIndex doc) ("oak_stairs".data) =
      none := by
    refine assocLookupNone (buildSuggestionIndex doc) ("oak_stairs".data) ?_
    intro kv hkv he
    have h95 : Char.ofNat 95 ∈ ("oak_stairs".data : Str) := by decide
    exact (hidxOK kv hkv).1 (he.symm ▸ h95)
  have hb0 : ∀ c, scoreOf (scoreKeywordPass (buildSuggestionIndex doc) []
      ("oak".data) 1) c ≤ 1 := by
    intro c
    have hle := scoreKeywordPassScoreLe (buildSuggestionIndex doc) hndidx []
      ("oak".data) 1 (by norm_num) c
    have h0 : scoreOf ([] : List (Str × ℚ)) c = 0 := rfl
    linarith
  have hb1 : ∀ c, scoreOf (scoreKeywordPass (buildSuggestionIndex doc)
      (scoreKeywordPass (buildSuggestionIndex doc) [] ("oak".data) 1)
      ("stairs".data) 1) c ≤ 2 := by
    intro c
    have hle := scoreKeywordPassScoreLe (buildSuggestionIndex doc) hndidx
      (scoreKeywordPass (buildSuggestionIndex doc) [] ("oak".data) 1)
      ("stairs".data) 1 (by norm_num) c
    linarith [hb0 c]
  have hpos1 : ∀ e ∈ scoreKeywordPass (buildSuggestionIndex doc)
      (scoreKeywordPass (buildSuggestionIndex doc) [] ("oak".data) 1)
      ("stairs".data) 1, 0 < e.2 :=
    scoreKeywordPassPos _ _ _ _ (by norm_num)
      (scoreKeywordPassPos _ _ _ _ (by norm_num) (by intro e he; simp at he))
  have hnd1 : ((scoreKeywordPass (buildSuggestionIndex doc)
      (scoreKeywordPass (buildSuggestionIndex doc) [] ("oak".data) 1)
      ("stairs".data) 1).map Prod.fst).Nodup :=
    scoreKeywordPassKeysNodup _ _ _ _
      (scoreKeywordPassKeysNodup _ _ _ _ (by simp))
  have hstrip : stripToBase ("oak_stairs".data) = "oak_stairs".data := by decide
  have hkw : keywordsOf ("oak_stairs".data) =
      ["oak".data, "stairs".data, "oak_stairs".data] := by decide
  have hfk2 : afterLast '_' ("oak_stairs".data) = "stairs".data := by decide
  have hunfold : scoreOneItem (buildSuggestionIndex doc) (buildFamilyIndex doc)
      [] ("oak_stairs".data) =
      cm.foldl (fun s q => scoreBump s q.1 ((q.2 : ℚ) * 5))
        (scoreKeywordPass (buildSuggestionIndex doc)
          (scoreKeywordPass (buildSuggestionIndex doc) [] ("oak".data) 1)
          ("stairs".data) 1) := by
    simp only [scoreOneItem, hstrip, hkw, hfk2, List.foldl_cons, List.foldl_nil]
    have hw1 : (if ("oak".data : Str) = "oak_stairs".data then (5 : ℚ) else 1) = 1 := by
      decide
    have hw2 : (if ("stairs".data : Str) = "oak_stairs".data then (5 : ℚ) else 1) = 1 := by
      decide
    rw [hw1, hw2]
    rw [scoreKeywordPassNone _ _ _ _ hlookupOS]
    rw [if_pos (show ("stairs".data : Str) ≠ [] from by decide)]
    rw [hcm0]
  have hcond : ¬((["oak_stairs".data] : List Str) = [] ∨
      buildSuggestionIndex doc = []) := by
    intro hor
    rcases hor with hor | hor
    · exact List.cons_ne_nil _ _ hor
    · exact hidxne hor
  rw [suggestEqOfNe doc ["oak_stairs".data] hcond]
  rw [show (["oak_stairs".data] : List Str).foldl
      (scoreOneItem (buildSuggestionIndex doc) (buildFamilyIndex doc)) [] =
      scoreOneItem (buildSuggestionIndex doc) (buildFamilyIndex doc) []
        ("oak_stairs".data) from by rw [List.foldl_cons, List.foldl_nil]]
  rw [hunfold]
  exact headPickOfScores cm ("block.10".data) hcmne hcmall _ hb1 hpos1 hnd1

-- ### Claim C7: the claim theorem and its witness

/-- C7 (amended): for every document and input list, (1) an empty input
list or an empty keyword index yields an empty result; (2) the result is
sorted by descending score with ties broken by ascending category key (the
comparison `sugRel`); (3) scores are normalized by the maximum accumulated
score, so whenever the result is non-empty its top entry scores exactly 1;
and (4) for input `["oak_stairs"]` against a document where only `block.10`
contains an item whose base name's family key — the text after the last
underscore, which is what the code uses in place of the claim's "ends in
stairs" — is exactly `stairs`, `block.10` is placed first with score 1. -/
theorem c7_suggestion_scoring (doc : List Element) (itemNames : List Str) :
    ((itemNames = [] ∨ buildSuggestionIndex doc = []) →
      suggestCategoriesForItemsList doc itemNames = [])
    ∧ List.Pairwise (fun a b => sugRel a b = true)
        (suggestCategoriesForItemsList doc itemNames)
    ∧ (∀ hd, (suggestCategoriesForItemsList doc itemNames).head? = some hd →
        hd.2 = 1)
    ∧ ((∃ p, Element.property p ∈ doc ∧ p.key = "block.10".data ∧
          ∃ it ∈ p.allItems, afterLast '_' (stripToBase it) = "stairs".data) →
       (∀ p, Element.property p ∈ doc → ∀ it ∈ p.allItems,
          afterLast '_' (stripToBase it) = "stairs".data →
          p.key = "block.10".data) →
       (suggestCategoriesForItemsList doc ["oak_stairs".data]).head? =
         some ("block.10".data, 1)) :=
  ⟨suggestEmptyCase doc itemNames, suggestSorted doc itemNames,
   suggestHeadOne doc itemNames,
   fun hex honly => suggestInstanceHead doc hex honly⟩

theorem famHexOfAny (doc : List Element) (k fk : Str)
    (h : doc.any (fun e =>
      match e with
      | Element.property p => decide (p.key = k) &&
          p.allItems.any (fun it2 => decide (afterLast '_' (stripToBase it2) = fk))
      | _ => false) = true) :
    ∃ p, Element.property p ∈ doc ∧ p.key = k ∧
      ∃ it ∈ p.allItems, afterLast '_' (stripToBase it) = fk := by
  rw [List.any_eq_true] at h
  obtain ⟨e, he, hcond⟩ := h
  cases e with
  | property p =>
    simp only at hcond
    rw [Bool.and_eq_true] at hcond
    obtain ⟨h1, h2⟩ := hcond
    rw [List.any_eq_true] at h2
    obtain ⟨it, hit, h3⟩ := h2
    exact ⟨p, he, of_decide_eq_true h1, it, hit, of_decide_eq_true h3⟩
  | comment c => exact Bool.noConfusion hcond
  | emptyLine => exact Bool.noConfusion hcond
  | directive c => exact Bool.noConfusion hcond

theorem famOnlyOfAll (doc : List Element) (k fk : Str)
    (h : doc.all (fun e =>
      match e with
      | Element.property p => decide (p.key = k) ||
          p.allItems.all (fun it2 => !decide (afterLast '_' (stripToBase it2) = fk))
      | _ => true) = true) :
    ∀ p, Element.property p ∈ doc → ∀ it ∈ p.allItems,
      afterLast '_' (stripToBase it) = fk → p.key = k := by
  intro p hp it hit hfk2
  rw [List.all_eq_true] at h
  have h2 := h _ hp
  simp only at h2
  rcases Bool.or_eq_true_iff.mp h2 with h3 | h3
  · exact of_decide_eq_true h3
  · rw [List.all_eq_true] at h3
    have h4 := h3 it hit
    exact absurd hfk2 (by simpa using h4)

/-- A two-category document for the C7 witness: only `block.10` holds an
item whose family key is `stairs`. -/
def c7wdoc : List Element := parseLines
  ["block.10=minecraft:oak_stairs".data, "block.5=minecraft:oak_door".data]

set_option maxRecDepth 8000 in
/-- C7 witness: the hypotheses of the instance part of the amended claim
hold for `c7wdoc`, and `block.10` is returned first with score 1. -/
theorem c7_suggestion_scoring_witness :
    (suggestCategoriesForItemsList c7wdoc ["oak_stairs".data]).head? =
      some ("block.10".data, 1) :=
  (c7_suggestion_scoring c7wdoc ["oak_stairs".data]).2.2.2
    (famHexOfAny c7wdoc ("block.10".data) ("stairs".data) (by decide))
    (famOnlyOfAll c7wdoc ("block.10".data) ("stairs".data) (by decide))

end IPM
